import Mathlib

/-!
Verification development for the document (composer / serializer) layer of a
YAML 1.1 processing library, a Rust port of libyaml.  The Rust sources embedded
here are `src/document.rs` (the `Document` type, `Document::load` composing a
node graph from an event stream, and `Document::dump` flattening it back to
events) and `src/api.rs` (`yaml_emitter_set_indent`, `yaml_document_get_node`).

Modelling conventions:
* `u32` node ids are `Nat`; the cast `self.nodes.len() as u32` is modelled
  with an explicit `% 2^32` (`u32OfNat`).
* `i32` arguments are `Int`; `i as usize` is modelled via `% 2^64`
  (`usizeOfI32`), and usize wrapping subtraction explicitly.
* Rust panics (failed `assert!`, out-of-bounds indexing, `unreachable!`) are
  modelled as `ComposeError.panic` inside `Except`, distinct from the
  recoverable `Error::composer` errors the code returns as `Err`.
* Rust `Vec` stacks (`ctx`, `aliases`, `items`, `pairs`) are Lean `List`s with
  push at the END (`l ++ [x]`), `last()` as `List.getLast?`, matching the Vec
  operations used by the source one for one.
-/

namespace YamlDoc

/-- Position marks attached to events and nodes (`Mark` in the source). -/
structure Mark where
  index : Nat
  line : Nat
  column : Nat
deriving Repr, DecidableEq

instance : Inhabited Mark := ⟨⟨0, 0, 0⟩⟩

/-- `Mark::default()`. -/
def Mark.default : Mark := ⟨0, 0, 0⟩

inductive ScalarStyle
  | any | plain | singleQuoted | doubleQuoted | literal | folded
deriving Repr, DecidableEq

inductive SequenceStyle
  | any | block | flow
deriving Repr, DecidableEq

inductive MappingStyle
  | any | block | flow
deriving Repr, DecidableEq

/-- `VersionDirective` (major, minor). -/
structure VersionDirective where
  major : Int
  minor : Int
deriving Repr, DecidableEq

/-- `TagDirective` (handle, prefix). -/
structure TagDirective where
  handle : String
  tagPrefix : String
deriving Repr, DecidableEq

def DEFAULT_SCALAR_TAG : String := "tag:yaml.org,2002:str"
def DEFAULT_SEQUENCE_TAG : String := "tag:yaml.org,2002:seq"
def DEFAULT_MAPPING_TAG : String := "tag:yaml.org,2002:map"

/-- An element of a mapping node (`NodePair`): key and value node ids (u32). -/
structure NodePair where
  key : Nat
  value : Nat
deriving Repr, DecidableEq

/-- Node payloads (`NodeData`). -/
inductive NodeData
  | noNode
  | scalar (value : String) (style : ScalarStyle)
  | sequence (items : List Nat) (style : SequenceStyle)
  | mapping (pairs : List NodePair) (style : MappingStyle)
deriving Repr, DecidableEq

/-- The node structure (`Node`). -/
structure Node where
  data : NodeData
  tag : Option String
  start_mark : Mark
  end_mark : Mark
deriving Repr, DecidableEq

/-- `Node::default()` (`NodeData` defaults to `NoNode`). -/
def Node.default : Node :=
  { data := .noNode, tag := none, start_mark := Mark.default, end_mark := Mark.default }

instance : Inhabited Node := ⟨Node.default⟩

/-- The document structure (`Document`). -/
structure Document where
  nodes : List Node
  version_directive : Option VersionDirective
  tag_directives : List TagDirective
  start_implicit : Bool
  end_implicit : Bool
  start_mark : Mark
  end_mark : Mark
deriving Repr, DecidableEq

/-- `Document::new` (capacity reservations have no observable effect). -/
def Document.new (version_directive : Option VersionDirective)
    (tag_directives : List TagDirective)
    (start_implicit end_implicit : Bool) : Document :=
  { nodes := []
    version_directive
    tag_directives
    start_implicit
    end_implicit
    start_mark := Mark.default
    end_mark := Mark.default }

/-- Event payloads (`EventData`), with exactly the fields the document layer
reads. -/
inductive EventData
  | streamStart
  | streamEnd
  | documentStart (version_directive : Option VersionDirective)
      (tag_directives : List TagDirective) (implicit : Bool)
  | documentEnd (implicit : Bool)
  | alias (anchor : String)
  | scalar (anchor : Option String) (tag : Option String) (value : String)
      (plain_implicit : Bool) (quoted_implicit : Bool) (style : ScalarStyle)
  | sequenceStart (anchor : Option String) (tag : Option String)
      (implicit : Bool) (style : SequenceStyle)
  | sequenceEnd
  | mappingStart (anchor : Option String) (tag : Option String)
      (implicit : Bool) (style : MappingStyle)
  | mappingEnd
deriving Repr, DecidableEq

/-- An event (`Event`): payload plus start/end marks. -/
structure Event where
  data : EventData
  start_mark : Mark
  end_mark : Mark
deriving Repr, DecidableEq

/-- `AliasData`: one entry of the parser's transient anchor table. -/
structure AliasData where
  anchor : String
  index : Nat
  mark : Mark
deriving Repr, DecidableEq

/-- Errors of the compose path.  `composer` is `Error::composer` (a recoverable
`Err`); `panic` models a Rust panic (failed assertion, out-of-range index,
`unreachable!`, or running out of parser events). -/
inductive ComposeError
  | composer (problem : String) (problem_mark : Mark)
      (context : String) (context_mark : Mark)
  | panic (msg : String)
deriving Repr, DecidableEq

/-- `n as u32` for a `usize` value `n`. -/
def u32OfNat (n : Nat) : Nat := n % 2 ^ 32

/-- `nodes[index as usize - 1]` for a 1-based u32/i32-positive id `index`.
For `index = 0` the usize subtraction wraps to `2^64 - 1`, which is out of
range for any Rust `Vec` (its length is below `2^64`), so the access panics;
we return `none` in that case and whenever `index - 1` is out of range. -/
def getNode1 (nodes : List Node) (index : Nat) : Option Node :=
  if index = 0 then none else nodes.get? (index - 1)

/-- Replace `nodes[index - 1]` (1-based); out-of-range leaves the list
unchanged (the source only calls this after a successful `getNode1`). -/
def setNode1 (nodes : List Node) (index : Nat) (node : Node) : List Node :=
  nodes.set (index - 1) node

/-- State threaded through `Document::load`: the document under construction,
the parser's alias table (`parser.aliases`), and the context stack of open
collections (`ctx`). -/
structure Composer where
  doc : Document
  aliases : List AliasData
  ctx : List Nat
deriving Repr, DecidableEq

/-- `Document::register_anchor`: ignore an absent anchor; reject a duplicate
anchor with a composer error carrying both marks; otherwise push the alias
entry. -/
def register_anchor (st : Composer) (index : Nat) (anchor : Option String) :
    Except ComposeError Composer :=
  match anchor with
  | none => .ok st
  | some anchor =>
    match getNode1 st.doc.nodes index with
    | none => .error (.panic "index out of range")
    | some node =>
      let data : AliasData := { anchor, index, mark := node.start_mark }
      match st.aliases.find? (fun alias_data => alias_data.anchor = data.anchor) with
      | some alias_data =>
        .error (.composer "found duplicate anchor; first occurrence"
          alias_data.mark "second occurrence" data.mark)
      | none => .ok { st with aliases := st.aliases ++ [data] }

/-- `Document::load_node_add`: attach node `index` to the innermost open
collection (the top of `ctx`); no-op when no collection is open.  A sequence
parent appends to `items`; a mapping parent fills the last pair's missing
value, or pushes a new pair with `index` as key; any other parent panics. -/
def load_node_add (st : Composer) (index : Nat) : Except ComposeError Composer :=
  match st.ctx.getLast? with
  | none => .ok st
  | some parent_index =>
    match getNode1 st.doc.nodes parent_index with
    | none => .error (.panic "index out of range")
    | some parent =>
      match parent.data with
      | .sequence items style =>
        let parent := { parent with data := .sequence (items ++ [index]) style }
        .ok { st with doc := { st.doc with nodes := setNode1 st.doc.nodes parent_index parent } }
      | .mapping pairs style =>
        match pairs.getLast? with
        | some pair =>
          if pair.value = 0 then
            -- If the last pair does not have a value, set `index` as the value.
            let pairs := pairs.dropLast ++ [{ pair with value := index }]
            let parent := { parent with data := NodeData.mapping pairs style }
            .ok { st with doc := { st.doc with nodes := setNode1 st.doc.nodes parent_index parent } }
          else
            let parent := { parent with data := NodeData.mapping (pairs ++ [⟨index, 0⟩]) style }
            .ok { st with doc := { st.doc with nodes := setNode1 st.doc.nodes parent_index parent } }
        | none =>
          let parent := { parent with data := NodeData.mapping (pairs ++ [⟨index, 0⟩]) style }
          .ok { st with doc := { st.doc with nodes := setNode1 st.doc.nodes parent_index parent } }
      | _ => .error (.panic "document parent node is not a sequence or a mapping")

/-- `Document::load_alias`: resolve the anchor against the alias table (first
matching entry) and attach the registered node id; an unknown anchor is a
composer error. -/
def load_alias (st : Composer) (anchor : String) (start_mark : Mark) :
    Except ComposeError Composer :=
  match st.aliases.find? (fun alias_data => alias_data.anchor = anchor) with
  | some alias_data => load_node_add st alias_data.index
  | none =>
    .error (.composer "" Mark.default "found undefined alias" start_mark)

/-- The tag normalization shared by `load_scalar`, `load_sequence` and
`load_mapping`: `if tag.is_none() || tag.as_deref() == Some("!") { tag =
Some(default) }`. -/
def resolveTag (tag : Option String) (dflt : String) : Option String :=
  if tag = none ∨ tag = some "!" then some dflt else tag

/-- `Document::load_scalar`: push the scalar node (tag normalized), register
its anchor, attach it to the parent. -/
def load_scalar (st : Composer) (anchor : Option String) (tag : Option String)
    (value : String) (style : ScalarStyle) (start_mark end_mark : Mark) :
    Except ComposeError Composer := do
  let node : Node :=
    { data := .scalar value style
      tag := resolveTag tag DEFAULT_SCALAR_TAG
      start_mark, end_mark }
  let nodes := st.doc.nodes ++ [node]
  let index := u32OfNat nodes.length
  let st := { st with doc := { st.doc with nodes } }
  let st ← register_anchor st index anchor
  load_node_add st index

/-- `Document::load_sequence`: push the (empty) sequence node (tag
normalized), register its anchor, attach it to the parent, then open it by
pushing its id on `ctx`. -/
def load_sequence (st : Composer) (anchor : Option String) (tag : Option String)
    (style : SequenceStyle) (start_mark end_mark : Mark) :
    Except ComposeError Composer := do
  let node : Node :=
    { data := .sequence [] style
      tag := resolveTag tag DEFAULT_SEQUENCE_TAG
      start_mark, end_mark }
  let nodes := st.doc.nodes ++ [node]
  let index := u32OfNat nodes.length
  let st := { st with doc := { st.doc with nodes } }
  let st ← register_anchor st index anchor
  let st ← load_node_add st index
  .ok { st with ctx := st.ctx ++ [index] }

/-- `Document::load_sequence_end`: assert the top of `ctx` is a sequence, set
its end mark, pop `ctx`. -/
def load_sequence_end (st : Composer) (end_mark : Mark) :
    Except ComposeError Composer :=
  match st.ctx.getLast? with
  | none => .error (.panic "sequence_end without a current sequence")
  | some index =>
    match getNode1 st.doc.nodes index with
    | none => .error (.panic "index out of range")
    | some node =>
      match node.data with
      | .sequence _ _ =>
        let nodes := setNode1 st.doc.nodes index { node with end_mark }
        .ok { st with doc := { st.doc with nodes }, ctx := st.ctx.dropLast }
      | _ => .error (.panic "assertion failed: node is not a sequence")

/-- `Document::load_mapping`: push the (empty) mapping node (tag normalized),
register its anchor, attach it to the parent, then open it by pushing its id
on `ctx`. -/
def load_mapping (st : Composer) (anchor : Option String) (tag : Option String)
    (style : MappingStyle) (start_mark end_mark : Mark) :
    Except ComposeError Composer := do
  let node : Node :=
    { data := .mapping [] style
      tag := resolveTag tag DEFAULT_MAPPING_TAG
      start_mark, end_mark }
  let nodes := st.doc.nodes ++ [node]
  let index := u32OfNat nodes.length
  let st := { st with doc := { st.doc with nodes } }
  let st ← register_anchor st index anchor
  let st ← load_node_add st index
  .ok { st with ctx := st.ctx ++ [index] }

/-- `Document::load_mapping_end`: assert the top of `ctx` is a mapping, set
its end mark, pop `ctx`. -/
def load_mapping_end (st : Composer) (end_mark : Mark) :
    Except ComposeError Composer :=
  match st.ctx.getLast? with
  | none => .error (.panic "mapping_end without a current mapping")
  | some index =>
    match getNode1 st.doc.nodes index with
    | none => .error (.panic "index out of range")
    | some node =>
      match node.data with
      | .mapping _ _ =>
        let nodes := setNode1 st.doc.nodes index { node with end_mark }
        .ok { st with doc := { st.doc with nodes }, ctx := st.ctx.dropLast }
      | _ => .error (.panic "assertion failed: node is not a mapping")

/-- `Document::load_nodes`: consume events until `DocumentEnd`, which records
`end_implicit` and the end mark.  Running out of events models a parse error
mid-document. -/
def load_nodes (st : Composer) : List Event → Except ComposeError Composer
  | [] => .error (.panic "no further event")
  | e :: rest =>
    match e.data with
    | .streamStart => .error (.panic "unexpected stream start event")
    | .streamEnd => .error (.panic "unexpected stream end event")
    | .documentStart _ _ _ => .error (.panic "unexpected document start event")
    | .documentEnd implicit =>
      .ok { st with doc := { st.doc with
        end_implicit := implicit, end_mark := e.end_mark } }
    | .alias anchor => do
      let st ← load_alias st anchor e.start_mark
      load_nodes st rest
    | .scalar anchor tag value _ _ style => do
      let st ← load_scalar st anchor tag value style e.start_mark e.end_mark
      load_nodes st rest
    | .sequenceStart anchor tag _ style => do
      let st ← load_sequence st anchor tag style e.start_mark e.end_mark
      load_nodes st rest
    | .sequenceEnd => do
      let st ← load_sequence_end st e.end_mark
      load_nodes st rest
    | .mappingStart anchor tag _ style => do
      let st ← load_mapping st anchor tag style e.start_mark e.end_mark
      load_nodes st rest
    | .mappingEnd => do
      let st ← load_mapping_end st e.end_mark
      load_nodes st rest

/-- `Document::load_document`: the event must be `DocumentStart`; record the
directives and marks and run `load_nodes` with a fresh context stack. -/
def load_document (doc : Document) (e : Event) (rest : List Event) :
    Except ComposeError Composer :=
  match e.data with
  | .documentStart version_directive tag_directives implicit =>
    load_nodes
      { doc := { doc with
          version_directive, tag_directives
          start_implicit := implicit
          start_mark := e.start_mark }
        aliases := []
        ctx := [] }
      rest
  | _ => .error (.panic "Expected YAML_DOCUMENT_START_EVENT")

/-- `Document::load` on a fresh parser, with the parser's event production
abstracted as the list of events it would deliver: expect `StreamStart`, then
either `StreamEnd` (empty document = end of stream) or a document. -/
def load (events : List Event) : Except ComposeError Document :=
  match events with
  | [] => .error (.panic "no further event")
  | e :: rest =>
    match e.data with
    | .streamStart =>
      match rest with
      | [] => .error (.panic "no further event")
      | e2 :: rest2 =>
        match e2.data with
        | .streamEnd => .ok (Document.new none [] false false)
        | _ => (load_document (Document.new none [] false false) e2 rest2).map
            (fun st => st.doc)
    | _ => .error (.panic "expected stream start")

/-- `Document::get_node` / `Document::get_root_node` need usize arithmetic:
`index as usize` for an `i32` index. -/
def usizeOfI32 (index : Int) : Nat := (index % (2 : Int) ^ 64).toNat

/-- usize wrapping subtraction `a - 1`. -/
def usizeSub1 (a : Nat) : Nat := (a + (2 ^ 64 - 1)) % 2 ^ 64

/-- `Document::get_node`: `self.nodes.get(index as usize - 1)`. -/
def Document.get_node (d : Document) (index : Int) : Option Node :=
  d.nodes.get? (usizeSub1 (usizeOfI32 index))

/-- `Document::get_node_mut` reads the same position
(`self.nodes.get_mut(index as usize - 1)`); in a pure model it returns the
same node. -/
def Document.get_node_mut (d : Document) (index : Int) : Option Node :=
  d.nodes.get? (usizeSub1 (usizeOfI32 index))

/-- `Document::get_root_node`: `self.nodes.get_mut(0)`. -/
def Document.get_root_node (d : Document) : Option Node :=
  d.nodes.get? 0

/-- `Document::append_sequence_item` (`i32` sequence id, `u32` item id): the
three `assert!`s, then push.  `none` models the panic of a failed assert. -/
def append_sequence_item (d : Document) (sequence : Int) (item : Nat) :
    Option Document :=
  if ¬ (sequence > 0 ∧ usizeSub1 (usizeOfI32 sequence) < d.nodes.length) then
    none
  else
    match d.nodes.get? (usizeSub1 (usizeOfI32 sequence)) with
    | none => none
    | some node =>
      match node.data with
      | .sequence items style =>
        if ¬ (item > 0 ∧ item - 1 < d.nodes.length) then none
        else
          let node := { node with data := NodeData.sequence (items ++ [item]) style }
          some { d with nodes := d.nodes.set (usizeSub1 (usizeOfI32 sequence)) node }
      | _ => none

/-- `Document::yaml_document_append_mapping_pair` (`i32` mapping id, `u32`
key/value ids): the four `assert!`s, then push the pair. -/
def yaml_document_append_mapping_pair (d : Document) (mapping : Int)
    (key value : Nat) : Option Document :=
  if ¬ (mapping > 0 ∧ usizeSub1 (usizeOfI32 mapping) < d.nodes.length) then
    none
  else
    match d.nodes.get? (usizeSub1 (usizeOfI32 mapping)) with
    | none => none
    | some node =>
      match node.data with
      | .mapping pairs style =>
        if ¬ (key > 0 ∧ key - 1 < d.nodes.length) then none
        else if ¬ (value > 0 ∧ value - 1 < d.nodes.length) then none
        else
          let node := { node with data := NodeData.mapping (pairs ++ [⟨key, value⟩]) style }
          some { d with nodes := d.nodes.set (usizeSub1 (usizeOfI32 mapping)) node }
      | _ => none

/-- `yaml_emitter_set_indent` (src/api.rs): the value stored into
`emitter.best_indent`. -/
def yaml_emitter_set_indent (indent : Int) : Int :=
  if 1 < indent ∧ indent < 10 then indent else 2

/-- Modelled from the spec: the per-node `Anchors` record of the serializer's
reference-counting pass (the struct is imported by `document.rs` from a
sibling module not reproduced here); its fields are exactly those
`document.rs` reads and writes: a reference count, the assigned anchor id
(0 = none), and the serialized flag. -/
structure Anchors where
  references : Nat
  anchor : Nat
  serialized : Bool
deriving Repr, DecidableEq

/-- `Anchors::default()`. -/
def Anchors.default : Anchors := ⟨0, 0, false⟩

instance : Inhabited Anchors := ⟨Anchors.default⟩

/-- `emitter.anchors[index - 1]` for a 1-based id, `none` on the panic of an
out-of-range access (usize wrap as in `getNode1`). -/
def getAnchors1 (anchors : List Anchors) (index : Nat) : Option Anchors :=
  if index = 0 then none else anchors.get? (index - 1)

/-- Replace `emitter.anchors[index - 1]` (1-based). -/
def setAnchors1 (anchors : List Anchors) (index : Nat) (a : Anchors) :
    List Anchors :=
  anchors.set (index - 1) a

/-- Modelled from the spec: the serializer-facing state of the `Emitter`
(the type lives in a sibling module not reproduced here).  `events` records
the consumed events in order ("events consumed by the Emitter are serialized
in the order delivered"); byte output is out of scope. -/
structure Emitter where
  opened : Bool
  anchors : List Anchors
  last_anchor_id : Nat
  events : List Event
deriving Repr, DecidableEq

/-- Modelled from the spec: `Emitter::emit` consumes one event (the emitter
"may buffer but never reorder"); presentation and write errors are out of
scope, so consumption always succeeds here. -/
def Emitter.emit (em : Emitter) (e : EventData) : Emitter :=
  { em with events := em.events ++ [⟨e, Mark.default, Mark.default⟩] }

/-- Modelled from the spec: `Emitter::generate_anchor` renders "an anchor
name of the form `id<N>`" from the numeric anchor id (the function lives in
a sibling module not reproduced here). -/
def generate_anchor (anchor_id : Nat) : String :=
  "id" ++ toString anchor_id

mutual

/-- `Document::anchor_node`: increment the reference count of `index`; on the
first reference walk into the node's children (`Emitter::anchor_node_sub` is
modelled from the spec as the recursive walk: "the first pass walks the node
graph from the root counting references per NodeId"); on the second
reference assign the next anchor id from the increasing counter.  `fuel`
bounds the recursion depth; `none` models a panic (bad index) or exhausted
fuel. -/
def anchor_node (d : Document) : Nat → Emitter → Nat → Option Emitter
  | 0, _, _ => none
  | fuel + 1, em, index =>
    match getNode1 d.nodes index, getAnchors1 em.anchors index with
    | some node, some a =>
      let a := { a with references := a.references + 1 }
      let em := { em with anchors := setAnchors1 em.anchors index a }
      if a.references = 1 then
        match node.data with
        | .sequence items _ => anchor_node_items d fuel em items
        | .mapping pairs _ => anchor_node_pairs d fuel em pairs
        | _ => some em
      else if a.references = 2 then
        let last := em.last_anchor_id + 1
        some { em with
          last_anchor_id := last
          anchors := setAnchors1 em.anchors index { a with anchor := last } }
      else
        some em
    | _, _ => none

/-- The `for item in items` loop of `anchor_node`'s sequence branch (each
step consumes one unit of fuel, keeping the recursion structural). -/
def anchor_node_items (d : Document) : Nat → Emitter → List Nat → Option Emitter
  | _, em, [] => some em
  | 0, _, _ :: _ => none
  | fuel + 1, em, item :: rest =>
    match anchor_node d fuel em item with
    | some em => anchor_node_items d fuel em rest
    | none => none

/-- The `for pair in pairs` loop of `anchor_node`'s mapping branch: the key
then the value of each pair. -/
def anchor_node_pairs (d : Document) : Nat → Emitter → List NodePair → Option Emitter
  | _, em, [] => some em
  | 0, _, _ :: _ => none
  | fuel + 1, em, pair :: rest =>
    match anchor_node d fuel em pair.key with
    | some em =>
      match anchor_node d fuel em pair.value with
      | some em => anchor_node_pairs d fuel em rest
      | none => none
    | none => none

end

/-- `Document::dump_alias`: emit an `Alias` event with the generated anchor
name. -/
def dump_alias (em : Emitter) (anchor : String) : Emitter :=
  em.emit (.alias anchor)

/-- `Document::dump_scalar`: both implicit flags come from the same
comparison of the node's tag with the default scalar tag (the source keeps
the duplicate comparison on purpose); `none` models the `unreachable!` panic
on a non-scalar node. -/
def dump_scalar (em : Emitter) (node : Node) (anchor : Option String) :
    Option Emitter :=
  let plain_implicit := node.tag == some DEFAULT_SCALAR_TAG
  let quoted_implicit := node.tag == some DEFAULT_SCALAR_TAG -- TODO: Why compare twice?! (even the C code does this)
  match node.data with
  | .scalar value style =>
    some (em.emit (.scalar anchor node.tag value plain_implicit quoted_implicit style))
  | _ => none

mutual

/-- `Document::dump_node`: an already serialized node dumps as an alias to
its (necessarily assigned) anchor; otherwise mark it serialized, take the
node out of the document (`core::mem::take`), and dump its payload.  `none`
models a panic (`assert!(index > 0)`, bad index, `anchor.unwrap()` on a
serialized node without an anchor, or a `NoNode`) or exhausted fuel. -/
def dump_node (d : Document) (em : Emitter) (index : Nat) :
    Nat → Option (Document × Emitter)
  | 0 => none
  | fuel + 1 =>
    if index = 0 then none
    else
      match getNode1 d.nodes index, getAnchors1 em.anchors index with
      | some node, some a =>
        let anchor : Option String :=
          if a.anchor ≠ 0 then some (generate_anchor a.anchor) else none
        if a.serialized then
          match anchor with
          | some s => some (d, dump_alias em s)
          | none => none
        else
          let em := { em with anchors := setAnchors1 em.anchors index { a with serialized := true } }
          let d := { d with nodes := setNode1 d.nodes index Node.default }
          match node.data with
          | .scalar _ _ => (dump_scalar em node anchor).map (fun em => (d, em))
          | .sequence _ _ => dump_sequence d em node anchor fuel
          | .mapping _ _ => dump_mapping d em node anchor fuel
          | .noNode => none
      | _, _ => none

/-- `Document::dump_sequence`: emit `SequenceStart` (implicit iff the tag is
the default sequence tag), dump the items, emit `SequenceEnd`. -/
def dump_sequence (d : Document) (em : Emitter) (node : Node)
    (anchor : Option String) : Nat → Option (Document × Emitter)
  | 0 => none
  | fuel + 1 =>
    let implicit := node.tag == some DEFAULT_SEQUENCE_TAG
    match node.data with
    | .sequence items style =>
      let em := em.emit (.sequenceStart anchor node.tag implicit style)
      match dump_node_items d em items fuel with
      | some (d, em) => some (d, em.emit .sequenceEnd)
      | none => none
    | _ => none

/-- `Document::dump_mapping`: emit `MappingStart` (implicit iff the tag is
the default mapping tag), dump key and value of each pair, emit
`MappingEnd`. -/
def dump_mapping (d : Document) (em : Emitter) (node : Node)
    (anchor : Option String) : Nat → Option (Document × Emitter)
  | 0 => none
  | fuel + 1 =>
    let implicit := node.tag == some DEFAULT_MAPPING_TAG
    match node.data with
    | .mapping pairs style =>
      let em := em.emit (.mappingStart anchor node.tag implicit style)
      match dump_node_pairs d em pairs fuel with
      | some (d, em) => some (d, em.emit .mappingEnd)
      | none => none
    | _ => none

/-- The `for item in items` loop of `dump_sequence`. -/
def dump_node_items (d : Document) (em : Emitter) :
    List Nat → Nat → Option (Document × Emitter)
  | [], _ => some (d, em)
  | _ :: _, 0 => none
  | item :: rest, fuel + 1 =>
    match dump_node d em item fuel with
    | some (d, em) => dump_node_items d em rest fuel
    | none => none

/-- The `for pair in pairs` loop of `dump_mapping`. -/
def dump_node_pairs (d : Document) (em : Emitter) :
    List NodePair → Nat → Option (Document × Emitter)
  | [], _ => some (d, em)
  | _ :: _, 0 => none
  | pair :: rest, fuel + 1 =>
    match dump_node d em pair.key fuel with
    | some (d, em) =>
      match dump_node d em pair.value fuel with
      | some (d, em) => dump_node_pairs d em rest fuel
      | none => none
    | none => none

end

/-- `Document::dump` on an already opened emitter with a non-empty document
(the empty-document and open/close paths delegate to emitter internals that
live outside the document layer): size the anchors array, emit
`DocumentStart`, run the reference-counting pass from the root (node 1),
dump the root, emit `DocumentEnd`. -/
def dump (d : Document) (em : Emitter) (fuel : Nat) :
    Option (Document × Emitter) :=
  if d.nodes.isEmpty then none
  else
    let em := { em with anchors := List.replicate d.nodes.length Anchors.default }
    let em := em.emit (.documentStart d.version_directive d.tag_directives d.start_implicit)
    match anchor_node d fuel em 1 with
    | some em =>
      match dump_node d em 1 fuel with
      | some (d, em) => some (d, em.emit (.documentEnd d.end_implicit))
      | none => none
    | none => none

/-- The node ids a node refers to: sequence items, or mapping pair keys and
values (in pair order). -/
def nodeIds (node : Node) : List Nat :=
  match node.data with
  | .sequence items _ => items
  | .mapping pairs _ => pairs.flatMap (fun pair => [pair.key, pair.value])
  | _ => []

/-- The claimed document invariant: every nonzero NodeId referenced from any
sequence's items or any mapping's pairs lies in `1..=nodes.len()`. -/
def docIdsOk (d : Document) : Prop :=
  ∀ node ∈ d.nodes, ∀ i ∈ nodeIds node, i ≠ 0 → 1 ≤ i ∧ i ≤ d.nodes.length

instance (d : Document) : Decidable (docIdsOk d) := by
  unfold docIdsOk; infer_instance

/-- The strengthened invariant carried through compose: all referenced ids
are bounded by the node count, and every registered alias points at an
existing node. -/
def composerInv (st : Composer) : Prop :=
  (∀ node ∈ st.doc.nodes, ∀ i ∈ nodeIds node, i ≤ st.doc.nodes.length) ∧
  (∀ a ∈ st.aliases, 1 ≤ a.index ∧ a.index ≤ st.doc.nodes.length)

/-- The anchor field of a node-introducing event (absent on the others). -/
def eventDataAnchor : EventData → Option String
  | .scalar anchor _ _ _ _ _ => anchor
  | .sequenceStart anchor _ _ _ => anchor
  | .mappingStart anchor _ _ _ => anchor
  | _ => none

/-- The invariant of the reference-counting pre-pass of `Document::dump`: a
node has an anchor exactly when it has (at least) two references so far, all
anchor ids were drawn from the increasing counter (hence bounded by
`last_anchor_id` and pairwise distinct). -/
def anchorAssignInv (em : Emitter) : Prop :=
  (∀ a ∈ em.anchors, (a.anchor ≠ 0 ↔ 2 ≤ a.references) ∧ a.anchor ≤ em.last_anchor_id) ∧
  (∀ i j ai aj, i ≠ j → em.anchors.get? i = some ai → em.anchors.get? j = some aj →
    ai.anchor ≠ 0 → aj.anchor ≠ 0 → ai.anchor ≠ aj.anchor)

/-- Modelled from the spec: the event stream the parser produces for the
input `"&a [1, *a]"` — a flow sequence anchored `a` containing the plain
scalar `1` and an alias to `a` (the parser itself lives outside the document
layer).  Marks are irrelevant to the composed structure and left at their
defaults. -/
def aliasSelfEvents : List Event :=
  [⟨.streamStart, Mark.default, Mark.default⟩,
   ⟨.documentStart none [] true, Mark.default, Mark.default⟩,
   ⟨.sequenceStart (some "a") none true .flow, Mark.default, Mark.default⟩,
   ⟨.scalar none none "1" true false .plain, Mark.default, Mark.default⟩,
   ⟨.alias "a", Mark.default, Mark.default⟩,
   ⟨.sequenceEnd, Mark.default, Mark.default⟩,
   ⟨.documentEnd true, Mark.default, Mark.default⟩]

/-- The spec's words for C8, taken literally: the indent argument "clamped"
into `[2, 9]`, i.e. moved to the nearest bound when outside. -/
def clampSpecIndent (indent : Int) : Int := max 2 (min 9 indent)

/-- What one serializer step does to the emitter: it only appends events,
and it preserves every node's assigned anchor id while never clearing a
serialized flag. -/
def DumpExtends (em em2 : Emitter) : Prop :=
  (∃ suffix, em2.events = em.events ++ suffix) ∧
  ∀ k a, em.anchors.get? k = some a → ∃ a2, em2.anchors.get? k = some a2 ∧
    a2.anchor = a.anchor ∧ (a.serialized = true → a2.serialized = true)

/-- Attach helper used to phrase `load_node_add` results: the composer with
the parent node's payload replaced. -/
def withParent (st : Composer) (parent : Nat) (node : Node) (data : NodeData) :
    Composer :=
  { st with doc := { st.doc with nodes := setNode1 st.doc.nodes parent { node with data } } }

/-- Concrete fixture: an open block sequence node. -/
def fixtureSeqNode : Node := ⟨.sequence [] .block, some DEFAULT_SEQUENCE_TAG, Mark.default, Mark.default⟩

/-- Concrete fixture: a scalar node with the default scalar tag. -/
def fixtureScalarNode : Node := ⟨.scalar "x" .plain, some DEFAULT_SCALAR_TAG, Mark.default, Mark.default⟩

/-- Concrete fixture: a two-node document (sequence root, one scalar). -/
def fixtureDoc : Document :=
  { nodes := [fixtureSeqNode, fixtureScalarNode]
    version_directive := none
    tag_directives := []
    start_implicit := true
    end_implicit := true
    start_mark := Mark.default
    end_mark := Mark.default }

/-- Concrete fixture: a composer state mid-load, with the sequence open and
anchor `a` registered for node 1. -/
def fixtureComposer : Composer :=
  ⟨fixtureDoc, [⟨"a", 1, Mark.default⟩], [1]⟩

/-- Concrete fixture: the composer state at the start of a load. -/
def emptyComposer : Composer := ⟨Document.new none [] false false, [], []⟩

/-- Concrete fixture: a document whose root sequence contains the same
scalar node twice (ids `[2, 2]`), so node 2 is multi-referenced. -/
def sharedDoc : Document :=
  { nodes := [⟨.sequence [2, 2] .block, some DEFAULT_SEQUENCE_TAG, Mark.default, Mark.default⟩,
      fixtureScalarNode]
    version_directive := none
    tag_directives := []
    start_implicit := true
    end_implicit := true
    start_mark := Mark.default
    end_mark := Mark.default }

/-- Concrete fixture: the emitter at the start of the dump of `sharedDoc`
(fresh anchors table, as `dump` builds it). -/
def sharedFreshEmitter : Emitter := ⟨true, List.replicate 2 Anchors.default, 0, []⟩

/-- Concrete fixture: the emitter after node 1 of `sharedDoc` has been
counted twice, assigned anchor 1 and serialized. -/
def sharedSerializedEmitter : Emitter := ⟨true, [⟨2, 1, true⟩, ⟨1, 0, false⟩], 1, []⟩

/-- Concrete fixture: the event stream of a one-scalar document. -/
def scalarDocEvents : List Event :=
  [⟨.streamStart, Mark.default, Mark.default⟩,
   ⟨.documentStart none [] true, Mark.default, Mark.default⟩,
   ⟨.scalar none none "k" true false .plain, Mark.default, Mark.default⟩,
   ⟨.documentEnd true, Mark.default, Mark.default⟩]

/-- `register_anchor` characterization on success: the document and context
are untouched, and the alias table is unchanged (absent anchor) or extended
with a fresh entry for `index`. -/
theorem register_anchor_ok_parts {st st' : Composer} {index : Nat}
    {anchor : Option String}
    (h : register_anchor st index anchor = .ok st') :
    st'.doc = st.doc ∧ st'.ctx = st.ctx ∧
    (st'.aliases = st.aliases ∨
      ∃ a node, anchor = some a ∧ getNode1 st.doc.nodes index = some node ∧
        (∀ x ∈ st.aliases, x.anchor ≠ a) ∧
        st'.aliases = st.aliases ++ [⟨a, index, node.start_mark⟩]) := by
  unfold register_anchor at h
  split at h
  · cases h; exact ⟨rfl, rfl, .inl rfl⟩
  next a =>
    split at h
    · exact Except.noConfusion h
    next node hn =>
      dsimp only [] at h
      split at h
      · exact Except.noConfusion h
      next hf =>
        cases h
        refine ⟨rfl, rfl, .inr ⟨a, node, rfl, hn, ?_, rfl⟩⟩
        intro x hx
        simpa using List.find?_eq_none.mp hf x hx

/-- `load_node_add` characterization on success: aliases and context are
untouched; the node list is unchanged or has exactly the parent position
replaced by a node whose referenced ids are the old ones, the attached id,
or 0. -/
theorem load_node_add_ok {st st' : Composer} {index : Nat}
    (h : load_node_add st index = .ok st') :
    st'.aliases = st.aliases ∧ st'.ctx = st.ctx ∧
    st'.doc.nodes.length = st.doc.nodes.length ∧
    (st'.doc.nodes = st.doc.nodes ∨
      ∃ p node nodeNew, st.ctx.getLast? = some p ∧ p ≠ 0 ∧
        st.doc.nodes.get? (p - 1) = some node ∧
        st'.doc.nodes = st.doc.nodes.set (p - 1) nodeNew ∧
        (∀ i ∈ nodeIds nodeNew, i ∈ nodeIds node ∨ i = index ∨ i = 0)) := by
  unfold load_node_add at h
  split at h
  · cases h; exact ⟨rfl, rfl, rfl, .inl rfl⟩
  next p heq =>
    split at h
    · exact Except.noConfusion h
    next node hn =>
      have hp0 : p ≠ 0 := by
        unfold getNode1 at hn; by_contra hc; rw [if_pos hc] at hn
        exact Option.noConfusion hn
      have hpget : st.doc.nodes.get? (p - 1) = some node := by
        unfold getNode1 at hn; rwa [if_neg hp0] at hn
      split at h
      case _ items style hdata =>
        cases h
        refine ⟨rfl, rfl, by simp [setNode1],
          .inr ⟨p, node, { node with data := NodeData.sequence (items ++ [index]) style },
            heq, hp0, hpget, rfl, ?_⟩⟩
        intro i hi
        simp only [nodeIds, hdata, List.mem_append, List.mem_singleton] at hi ⊢
        rcases hi with hi | hi
        · exact .inl hi
        · exact .inr (.inl hi)
      case _ pairs style hdata =>
        split at h
        next pair hlast =>
          split at h
          · cases h
            refine ⟨rfl, rfl, by simp [setNode1],
              .inr ⟨p, node,
                { node with
                    data := NodeData.mapping (pairs.dropLast ++ [{ pair with value := index }]) style },
                heq, hp0, hpget, rfl, ?_⟩⟩
            intro i hi
            simp only [nodeIds, hdata, List.mem_flatMap] at hi ⊢
            rcases hi with ⟨q, hq, hiq⟩
            rcases List.mem_append.mp hq with hq | hq
            · exact .inl ⟨q, List.dropLast_subset _ hq, hiq⟩
            · rcases List.mem_singleton.mp hq with rfl
              simp only [List.mem_cons, List.not_mem_nil, or_false] at hiq
              rcases hiq with rfl | rfl
              · exact .inl ⟨pair, List.mem_of_getLast?_eq_some hlast, by simp⟩
              · exact .inr (.inl rfl)
          · cases h
            refine ⟨rfl, rfl, by simp [setNode1],
              .inr ⟨p, node,
                { node with data := NodeData.mapping (pairs ++ [⟨index, 0⟩]) style },
                heq, hp0, hpget, rfl, ?_⟩⟩
            intro i hi
            simp only [nodeIds, hdata, List.mem_flatMap] at hi ⊢
            rcases hi with ⟨q, hq, hiq⟩
            rcases List.mem_append.mp hq with hq | hq
            · exact .inl ⟨q, hq, hiq⟩
            · rcases List.mem_singleton.mp hq with rfl
              simp only [List.mem_cons, List.not_mem_nil, or_false] at hiq
              rcases hiq with rfl | rfl
              · exact .inr (.inl rfl)
              · exact .inr (.inr rfl)
        next hlast =>
          cases h
          refine ⟨rfl, rfl, by simp [setNode1],
            .inr ⟨p, node,
              { node with data := NodeData.mapping (pairs ++ [⟨index, 0⟩]) style },
              heq, hp0, hpget, rfl, ?_⟩⟩
          intro i hi
          simp only [nodeIds, hdata, List.mem_flatMap] at hi ⊢
          rcases hi with ⟨q, hq, hiq⟩
          rcases List.mem_append.mp hq with hq | hq
          · exact .inl ⟨q, hq, hiq⟩
          · rcases List.mem_singleton.mp hq with rfl
            simp only [List.mem_cons, List.not_mem_nil, or_false] at hiq
            rcases hiq with rfl | rfl
            · exact .inr (.inl rfl)
            · exact .inr (.inr rfl)
      · exact Except.noConfusion h

/-- `load_alias` characterization on success: it behaves as a
`load_node_add` of the resolved id. -/
theorem load_alias_ok {st st' : Composer} {anchor : String} {mark : Mark}
    (h : load_alias st anchor mark = .ok st') :
    ∃ first, st.aliases.find? (fun a => a.anchor = anchor) = some first ∧
      load_node_add st first.index = .ok st' := by
  unfold load_alias at h
  split at h
  next first hf => exact ⟨first, hf, h⟩
  · exact Except.noConfusion h

/-- Splitting a successful `Except` bind. -/
theorem exceptBind_ok {ε α β : Type} {x : Except ε α} {f : α → Except ε β} {b : β}
    (h : (x >>= f) = .ok b) : ∃ a, x = .ok a ∧ f a = .ok b := by
  cases x with
  | error e => exact Except.noConfusion h
  | ok a => exact ⟨a, rfl, h⟩

/-- `load_sequence_end` characterization on success: aliases untouched, the
top of the context popped, only the end mark of the top node updated. -/
theorem load_sequence_end_ok {st st' : Composer} {m : Mark}
    (h : load_sequence_end st m = .ok st') :
    st'.aliases = st.aliases ∧ st'.ctx = st.ctx.dropLast ∧
    st'.doc.nodes.length = st.doc.nodes.length ∧
    ∃ p node, st.ctx.getLast? = some p ∧ p ≠ 0 ∧
      st.doc.nodes.get? (p - 1) = some node ∧
      st'.doc.nodes = st.doc.nodes.set (p - 1) { node with end_mark := m } := by
  unfold load_sequence_end at h
  split at h
  · exact Except.noConfusion h
  next p heq =>
    split at h
    · exact Except.noConfusion h
    next node hn =>
      have hp0 : p ≠ 0 := by
        unfold getNode1 at hn; by_contra hc; rw [if_pos hc] at hn
        exact Option.noConfusion hn
      have hpget : st.doc.nodes.get? (p - 1) = some node := by
        unfold getNode1 at hn; rwa [if_neg hp0] at hn
      split at h
      · cases h
        exact ⟨rfl, rfl, by simp [setNode1], p, node, heq, hp0, hpget, rfl⟩
      · exact Except.noConfusion h

/-- `load_mapping_end` characterization on success (same shape as
`load_sequence_end`). -/
theorem load_mapping_end_ok {st st' : Composer} {m : Mark}
    (h : load_mapping_end st m = .ok st') :
    st'.aliases = st.aliases ∧ st'.ctx = st.ctx.dropLast ∧
    st'.doc.nodes.length = st.doc.nodes.length ∧
    ∃ p node, st.ctx.getLast? = some p ∧ p ≠ 0 ∧
      st.doc.nodes.get? (p - 1) = some node ∧
      st'.doc.nodes = st.doc.nodes.set (p - 1) { node with end_mark := m } := by
  unfold load_mapping_end at h
  split at h
  · exact Except.noConfusion h
  next p heq =>
    split at h
    · exact Except.noConfusion h
    next node hn =>
      have hp0 : p ≠ 0 := by
        unfold getNode1 at hn; by_contra hc; rw [if_pos hc] at hn
        exact Option.noConfusion hn
      have hpget : st.doc.nodes.get? (p - 1) = some node := by
        unfold getNode1 at hn; rwa [if_neg hp0] at hn
      split at h
      · cases h
        exact ⟨rfl, rfl, by simp [setNode1], p, node, heq, hp0, hpget, rfl⟩
      · exact Except.noConfusion h

/-- Generic invariant preservation through the `load_nodes` loop, given
preservation by each event handler. -/
theorem load_nodes_preserves (P : Composer → Prop)
    (hal : ∀ st a m st', P st → load_alias st a m = .ok st' → P st')
    (hsc : ∀ st a t v sty m1 m2 st', P st → load_scalar st a t v sty m1 m2 = .ok st' → P st')
    (hsq : ∀ st a t sty m1 m2 st', P st → load_sequence st a t sty m1 m2 = .ok st' → P st')
    (hse : ∀ st m st', P st → load_sequence_end st m = .ok st' → P st')
    (hmp : ∀ st a t sty m1 m2 st', P st → load_mapping st a t sty m1 m2 = .ok st' → P st')
    (hme : ∀ st m st', P st → load_mapping_end st m = .ok st' → P st')
    (hde : ∀ st b m, P st →
      P { st with doc := { st.doc with end_implicit := b, end_mark := m } }) :
    ∀ events st st', P st → load_nodes st events = .ok st' → P st' := by
  intro events
  induction events with
  | nil => intro st st' hP h; exact Except.noConfusion h
  | cons e rest ih =>
    intro st st' hP h
    obtain ⟨data, sm, em⟩ := e
    cases data with
    | streamStart => exact Except.noConfusion h
    | streamEnd => exact Except.noConfusion h
    | documentStart v t b => exact Except.noConfusion h
    | documentEnd b =>
      simp only [load_nodes] at h
      cases h
      exact hde st b em hP
    | «alias» a =>
      simp only [load_nodes] at h
      obtain ⟨stA, hx, hrest⟩ := exceptBind_ok h
      exact ih stA st' (hal st a sm stA hP hx) hrest
    | scalar a t v pi qi sty =>
      simp only [load_nodes] at h
      obtain ⟨stA, hx, hrest⟩ := exceptBind_ok h
      exact ih stA st' (hsc st a t v sty sm em stA hP hx) hrest
    | sequenceStart a t b sty =>
      simp only [load_nodes] at h
      obtain ⟨stA, hx, hrest⟩ := exceptBind_ok h
      exact ih stA st' (hsq st a t sty sm em stA hP hx) hrest
    | sequenceEnd =>
      simp only [load_nodes] at h
      obtain ⟨stA, hx, hrest⟩ := exceptBind_ok h
      exact ih stA st' (hse st em stA hP hx) hrest
    | mappingStart a t b sty =>
      simp only [load_nodes] at h
      obtain ⟨stA, hx, hrest⟩ := exceptBind_ok h
      exact ih stA st' (hmp st a t sty sm em stA hP hx) hrest
    | mappingEnd =>
      simp only [load_nodes] at h
      obtain ⟨stA, hx, hrest⟩ := exceptBind_ok h
      exact ih stA st' (hme st em stA hP hx) hrest

/-- `register_anchor` preserves distinctness of the registered anchors. -/
theorem register_anchor_nodup {st st' : Composer} {index : Nat}
    {anchor : Option String}
    (hN : (st.aliases.map AliasData.anchor).Nodup)
    (h : register_anchor st index anchor = .ok st') :
    (st'.aliases.map AliasData.anchor).Nodup := by
  obtain ⟨-, -, hc | ⟨a, node, -, -, hfresh, heq⟩⟩ := register_anchor_ok_parts h
  · rwa [hc]
  · rw [heq, List.map_append]
    refine hN.append (List.nodup_singleton _) ?_
    intro x hx hy
    simp only [List.map_cons, List.map_nil, List.mem_singleton] at hy
    obtain ⟨y, hym, rfl⟩ := List.mem_map.mp hx
    exact hfresh y hym hy

/-- `load_scalar` preserves distinctness of the registered anchors. -/
theorem load_scalar_nodup {st st' : Composer} {a : Option String}
    {t : Option String} {v : String} {sty : ScalarStyle} {m1 m2 : Mark}
    (hN : (st.aliases.map AliasData.anchor).Nodup)
    (h : load_scalar st a t v sty m1 m2 = .ok st') :
    (st'.aliases.map AliasData.anchor).Nodup := by
  unfold load_scalar at h
  obtain ⟨stA, hra, hadd⟩ := exceptBind_ok h
  rw [(load_node_add_ok hadd).1]
  refine register_anchor_nodup ?_ hra
  exact hN

/-- `load_sequence` preserves distinctness of the registered anchors. -/
theorem load_sequence_nodup {st st' : Composer} {a : Option String}
    {t : Option String} {sty : SequenceStyle} {m1 m2 : Mark}
    (hN : (st.aliases.map AliasData.anchor).Nodup)
    (h : load_sequence st a t sty m1 m2 = .ok st') :
    (st'.aliases.map AliasData.anchor).Nodup := by
  unfold load_sequence at h
  obtain ⟨stA, hra, h2⟩ := exceptBind_ok h
  obtain ⟨stB, hadd, h3⟩ := exceptBind_ok h2
  cases h3
  show (stB.aliases.map AliasData.anchor).Nodup
  rw [(load_node_add_ok hadd).1]
  refine register_anchor_nodup ?_ hra
  exact hN

/-- `load_mapping` preserves distinctness of the registered anchors. -/
theorem load_mapping_nodup {st st' : Composer} {a : Option String}
    {t : Option String} {sty : MappingStyle} {m1 m2 : Mark}
    (hN : (st.aliases.map AliasData.anchor).Nodup)
    (h : load_mapping st a t sty m1 m2 = .ok st') :
    (st'.aliases.map AliasData.anchor).Nodup := by
  unfold load_mapping at h
  obtain ⟨stA, hra, h2⟩ := exceptBind_ok h
  obtain ⟨stB, hadd, h3⟩ := exceptBind_ok h2
  cases h3
  show (stB.aliases.map AliasData.anchor).Nodup
  rw [(load_node_add_ok hadd).1]
  refine register_anchor_nodup ?_ hra
  exact hN

/-- Bounds carried by a successful 1-based node lookup. -/
theorem getNode1_some_bounds {nodes : List Node} {i : Nat} {n : Node}
    (h : getNode1 nodes i = some n) : 1 ≤ i ∧ i ≤ nodes.length := by
  unfold getNode1 at h
  split at h
  · exact Option.noConfusion h
  next h0 =>
    obtain ⟨hlt, -⟩ := List.get?_eq_some.mp h
    omega

/-- Pushing a node with no references preserves the composer invariant. -/
theorem pushNode_inv {st : Composer} {n0 : Node} (hIds : nodeIds n0 = [])
    (hInv : composerInv st) :
    composerInv { st with doc := { st.doc with nodes := st.doc.nodes ++ [n0] } } := by
  obtain ⟨h1, h2⟩ := hInv
  constructor
  · intro node hm i hi
    simp only [List.length_append, List.length_singleton]
    rcases List.mem_append.mp hm with hm | hm
    · exact le_trans (h1 node hm i hi) (by omega)
    · rcases List.mem_singleton.mp hm with rfl
      rw [hIds] at hi
      cases hi
  · intro a ha
    obtain ⟨ha1, ha2⟩ := h2 a ha
    simp only [List.length_append, List.length_singleton]
    omega

/-- `register_anchor` preserves the composer invariant. -/
theorem register_anchor_inv {st st' : Composer} {index : Nat}
    {anchor : Option String} (hInv : composerInv st)
    (h : register_anchor st index anchor = .ok st') : composerInv st' := by
  obtain ⟨hdoc, -, hc | ⟨a, node, -, hn, -, heq⟩⟩ := register_anchor_ok_parts h
  · obtain ⟨h1, h2⟩ := hInv
    constructor
    · intro node hm i hi
      rw [hdoc] at hm ⊢
      exact h1 node hm i hi
    · intro x hx
      rw [hc] at hx
      rw [hdoc]
      exact h2 x hx
  · obtain ⟨h1, h2⟩ := hInv
    obtain ⟨hi1, hi2⟩ := getNode1_some_bounds hn
    constructor
    · intro node hm i hi
      rw [hdoc] at hm ⊢
      exact h1 node hm i hi
    · intro x hx
      rw [heq] at hx
      rw [hdoc]
      rcases List.mem_append.mp hx with hx | hx
      · exact h2 x hx
      · rcases List.mem_singleton.mp hx with rfl
        exact ⟨hi1, hi2⟩

/-- `load_node_add` of an id within range preserves the composer
invariant. -/
theorem load_node_add_inv {st st' : Composer} {index : Nat}
    (hInv : composerInv st) (hidx : index ≤ st.doc.nodes.length)
    (h : load_node_add st index = .ok st') : composerInv st' := by
  obtain ⟨hal, -, hlen, hmain⟩ := load_node_add_ok h
  obtain ⟨h1, h2⟩ := hInv
  rcases hmain with hsame | ⟨p, nodeB, nodeNew, -, hp0, hget, hset, hids⟩
  · constructor
    · intro node hm i hi
      rw [hsame] at hm ⊢
      exact h1 node hm i hi
    · intro x hx
      rw [hal] at hx
      rw [hsame]
      exact h2 x hx
  · have hB : nodeB ∈ st.doc.nodes := List.get?_mem hget
    constructor
    · intro node hm i hi
      rw [hlen]
      rw [hset] at hm
      rcases List.mem_or_eq_of_mem_set hm with hm | rfl
      · exact h1 node hm i hi
      · rcases hids i hi with hi2 | rfl | rfl
        · exact h1 nodeB hB i hi2
        · exact hidx
        · omega
    · intro x hx
      rw [hal] at hx
      rw [hlen]
      exact h2 x hx

/-- `load_scalar` preserves the composer invariant. -/
theorem load_scalar_inv {st st' : Composer} {a t : Option String} {v : String}
    {sty : ScalarStyle} {m1 m2 : Mark} (hInv : composerInv st)
    (h : load_scalar st a t v sty m1 m2 = .ok st') : composerInv st' := by
  unfold load_scalar at h
  obtain ⟨stA, hra, hadd⟩ := exceptBind_ok h
  have hP : composerInv { st with doc := { st.doc with
      nodes := st.doc.nodes ++ [⟨.scalar v sty, resolveTag t DEFAULT_SCALAR_TAG, m1, m2⟩] } } :=
    pushNode_inv rfl hInv
  have hA : composerInv stA := register_anchor_inv hP hra
  have hdocA := (register_anchor_ok_parts hra).1
  refine load_node_add_inv hA ?_ hadd
  rw [congrArg Document.nodes hdocA]
  simp only [List.length_append, List.length_singleton]
  exact le_trans (Nat.mod_le _ _) (le_refl _)

/-- `load_sequence` preserves the composer invariant. -/
theorem load_sequence_inv {st st' : Composer} {a t : Option String}
    {sty : SequenceStyle} {m1 m2 : Mark} (hInv : composerInv st)
    (h : load_sequence st a t sty m1 m2 = .ok st') : composerInv st' := by
  unfold load_sequence at h
  obtain ⟨stA, hra, h2⟩ := exceptBind_ok h
  obtain ⟨stB, hadd, h3⟩ := exceptBind_ok h2
  cases h3
  have hP : composerInv { st with doc := { st.doc with
      nodes := st.doc.nodes ++ [⟨.sequence [] sty, resolveTag t DEFAULT_SEQUENCE_TAG, m1, m2⟩] } } :=
    pushNode_inv rfl hInv
  have hA : composerInv stA := register_anchor_inv hP hra
  have hdocA := (register_anchor_ok_parts hra).1
  have hB : composerInv stB := by
    refine load_node_add_inv hA ?_ hadd
    rw [congrArg Document.nodes hdocA]
    simp only [List.length_append, List.length_singleton]
    exact le_trans (Nat.mod_le _ _) (le_refl _)
  exact ⟨hB.1, hB.2⟩

/-- `load_mapping` preserves the composer invariant. -/
theorem load_mapping_inv {st st' : Composer} {a t : Option String}
    {sty : MappingStyle} {m1 m2 : Mark} (hInv : composerInv st)
    (h : load_mapping st a t sty m1 m2 = .ok st') : composerInv st' := by
  unfold load_mapping at h
  obtain ⟨stA, hra, h2⟩ := exceptBind_ok h
  obtain ⟨stB, hadd, h3⟩ := exceptBind_ok h2
  cases h3
  have hP : composerInv { st with doc := { st.doc with
      nodes := st.doc.nodes ++ [⟨.mapping [] sty, resolveTag t DEFAULT_MAPPING_TAG, m1, m2⟩] } } :=
    pushNode_inv rfl hInv
  have hA : composerInv stA := register_anchor_inv hP hra
  have hdocA := (register_anchor_ok_parts hra).1
  have hB : composerInv stB := by
    refine load_node_add_inv hA ?_ hadd
    rw [congrArg Document.nodes hdocA]
    simp only [List.length_append, List.length_singleton]
    exact le_trans (Nat.mod_le _ _) (le_refl _)
  exact ⟨hB.1, hB.2⟩

/-- `load_alias` preserves the composer invariant (the resolved id is in
range because every alias entry is). -/
theorem load_alias_inv {st st' : Composer} {anchor : String} {mark : Mark}
    (hInv : composerInv st) (h : load_alias st anchor mark = .ok st') :
    composerInv st' := by
  obtain ⟨first, hfind, hadd⟩ := load_alias_ok h
  have hmem : first ∈ st.aliases := List.mem_of_find?_eq_some hfind
  exact load_node_add_inv hInv (hInv.2 first hmem).2 hadd

/-- Updating an end mark preserves the composer invariant. -/
theorem end_update_inv {st st' : Composer} {m : Mark}
    (hInv : composerInv st)
    (hal : st'.aliases = st.aliases) (hlen : st'.doc.nodes.length = st.doc.nodes.length)
    (hup : ∃ p node, st.doc.nodes.get? (p - 1) = some node ∧
      st'.doc.nodes = st.doc.nodes.set (p - 1) { node with end_mark := m }) :
    composerInv st' := by
  obtain ⟨h1, h2⟩ := hInv
  obtain ⟨p, node, hget, hset⟩ := hup
  have hB : node ∈ st.doc.nodes := List.get?_mem hget
  constructor
  · intro x hm i hi
    rw [hlen]
    rw [hset] at hm
    rcases List.mem_or_eq_of_mem_set hm with hm | rfl
    · exact h1 x hm i hi
    · exact h1 node hB i hi
  · intro x hx
    rw [hal] at hx
    rw [hlen]
    exact h2 x hx

/-- Bounds carried by a successful 1-based anchors lookup. -/
theorem getAnchors1_some {anchors : List Anchors} {i : Nat} {a : Anchors}
    (h : getAnchors1 anchors i = some a) :
    i ≠ 0 ∧ i - 1 < anchors.length ∧ anchors.get? (i - 1) = some a := by
  unfold getAnchors1 at h
  split at h
  · exact Option.noConfusion h
  next h0 =>
    obtain ⟨hlt, -⟩ := List.get?_eq_some.mp h
    exact ⟨h0, hlt, h⟩

/-- Replacing one anchors entry by one with the same anchor id and a
compatible reference count preserves the assignment invariant. -/
theorem anchorInv_set_same {em : Emitter} {k : Nat} {a a2 : Anchors}
    (hInv : anchorAssignInv em) (hget : em.anchors.get? k = some a)
    (ha : a2.anchor = a.anchor) (hiff : a2.anchor ≠ 0 ↔ 2 ≤ a2.references) :
    anchorAssignInv { em with anchors := em.anchors.set k a2 } := by
  obtain ⟨h1, h2⟩ := hInv
  obtain ⟨hklt, -⟩ := List.get?_eq_some.mp hget
  have hmem : a ∈ em.anchors := List.get?_mem hget
  constructor
  · intro x hx
    rcases List.mem_or_eq_of_mem_set hx with hx | rfl
    · exact h1 x hx
    · exact ⟨hiff, ha ▸ (h1 a hmem).2⟩
  · intro i j ai aj hij hgi hgj h0i h0j
    dsimp only [] at hgi hgj
    by_cases hik : i = k
    · subst hik
      rw [List.get?_set_eq_of_lt _ hklt] at hgi
      rw [List.get?_set_ne _ _ hij] at hgj
      cases hgi
      rw [ha] at h0i ⊢
      exact h2 i j a aj hij hget hgj h0i h0j
    · rw [List.get?_set_ne _ _ (fun hc => hik hc.symm)] at hgi
      by_cases hjk : j = k
      · subst hjk
        rw [List.get?_set_eq_of_lt _ hklt] at hgj
        cases hgj
        rw [ha] at h0j ⊢
        exact h2 i j ai a hij hgi hget h0i h0j
      · rw [List.get?_set_ne _ _ (fun hc => hjk hc.symm)] at hgj
        exact h2 i j ai aj hij hgi hgj h0i h0j

/-- Assigning the next counter value as a fresh anchor id preserves the
assignment invariant. -/
theorem anchorInv_set_fresh {em : Emitter} {k : Nat} {a a2 : Anchors}
    (hInv : anchorAssignInv em) (hget : em.anchors.get? k = some a)
    (ha2 : a2.anchor = em.last_anchor_id + 1) (hrefs : 2 ≤ a2.references) :
    anchorAssignInv { em with
      last_anchor_id := em.last_anchor_id + 1
      anchors := em.anchors.set k a2 } := by
  obtain ⟨h1, h2⟩ := hInv
  obtain ⟨hklt, -⟩ := List.get?_eq_some.mp hget
  constructor
  · intro x hx
    dsimp only [] at hx ⊢
    rcases List.mem_or_eq_of_mem_set hx with hx | rfl
    · obtain ⟨hx1, hx2⟩ := h1 x hx
      exact ⟨hx1, by omega⟩
    · refine ⟨⟨fun _ => hrefs, fun _ => by omega⟩, by omega⟩
  · intro i j ai aj hij hgi hgj h0i h0j
    dsimp only [] at hgi hgj
    by_cases hik : i = k
    · subst hik
      rw [List.get?_set_eq_of_lt _ hklt] at hgi
      rw [List.get?_set_ne _ _ hij] at hgj
      cases hgi
      have hja : aj.anchor ≤ em.last_anchor_id := (h1 aj (List.get?_mem hgj)).2
      omega
    · rw [List.get?_set_ne _ _ (fun hc => hik hc.symm)] at hgi
      by_cases hjk : j = k
      · subst hjk
        rw [List.get?_set_eq_of_lt _ hklt] at hgj
        cases hgj
        have hia : ai.anchor ≤ em.last_anchor_id := (h1 ai (List.get?_mem hgi)).2
        omega
      · rw [List.get?_set_ne _ _ (fun hc => hjk hc.symm)] at hgj
        exact h2 i j ai aj hij hgi hgj h0i h0j

/-- The reference-counting pass preserves the anchor-assignment invariant
and only ever increases the anchor counter (for the walk itself and its two
loop helpers, any fuel). -/
theorem anchor_pass_inv : ∀ fuel : Nat,
    (∀ (d : Document) (em : Emitter) (i : Nat) (em2 : Emitter),
      anchorAssignInv em → anchor_node d fuel em i = some em2 →
      anchorAssignInv em2 ∧ em.last_anchor_id ≤ em2.last_anchor_id) ∧
    (∀ (d : Document) (items : List Nat) (em em2 : Emitter),
      anchorAssignInv em → anchor_node_items d fuel em items = some em2 →
      anchorAssignInv em2 ∧ em.last_anchor_id ≤ em2.last_anchor_id) ∧
    (∀ (d : Document) (pairs : List NodePair) (em em2 : Emitter),
      anchorAssignInv em → anchor_node_pairs d fuel em pairs = some em2 →
      anchorAssignInv em2 ∧ em.last_anchor_id ≤ em2.last_anchor_id) := by
  intro fuel
  induction fuel with
  | zero =>
    have hnode : ∀ (d : Document) (em : Emitter) (i : Nat) (em2 : Emitter),
        anchorAssignInv em → anchor_node d 0 em i = some em2 →
        anchorAssignInv em2 ∧ em.last_anchor_id ≤ em2.last_anchor_id := by
      intro d em i em2 hInv h
      simp only [anchor_node] at h
      exact Option.noConfusion h
    refine ⟨hnode, ?_, ?_⟩
    · intro d items em em2 hInv h
      cases items with
      | nil =>
        simp only [anchor_node_items] at h
        cases h; exact ⟨hInv, le_refl _⟩
      | cons x xs =>
        simp only [anchor_node_items, anchor_node] at h
        exact Option.noConfusion h
    · intro d pairs em em2 hInv h
      cases pairs with
      | nil =>
        simp only [anchor_node_pairs] at h
        cases h; exact ⟨hInv, le_refl _⟩
      | cons x xs =>
        simp only [anchor_node_pairs, anchor_node] at h
        exact Option.noConfusion h
  | succ fuel ih =>
    obtain ⟨ihn, ihi, ihp⟩ := ih
    have hnode : ∀ (d : Document) (em : Emitter) (i : Nat) (em2 : Emitter),
        anchorAssignInv em → anchor_node d (fuel + 1) em i = some em2 →
        anchorAssignInv em2 ∧ em.last_anchor_id ≤ em2.last_anchor_id := by
      intro d em i em2 hInv h
      simp only [anchor_node] at h
      split at h
      next node a hn ha =>
        obtain ⟨hi0, hilt, higet⟩ := getAnchors1_some ha
        have hamem : a ∈ em.anchors := List.get?_mem higet
        obtain ⟨haiff, habound⟩ := hInv.1 a hamem
        by_cases h1 : a.references + 1 = 1
        · rw [if_pos h1] at h
          have ha0 : a.anchor = 0 := by
            by_cases hc : a.anchor = 0
            · exact hc
            · have := haiff.mp hc; omega
          have hInvA : anchorAssignInv { em with
              anchors := setAnchors1 em.anchors i { a with references := a.references + 1 } } := by
            refine anchorInv_set_same hInv higet rfl ?_
            constructor
            · intro hh; exact absurd ha0 hh
            · intro hh
              exact absurd (show 2 ≤ a.references + 1 from hh) (by omega)
          split at h
          · have hres := ihi d _ _ em2 hInvA h
            exact hres
          · have hres := ihp d _ _ em2 hInvA h
            exact hres
          · cases h
            refine ⟨hInvA, ?_⟩
            show em.last_anchor_id ≤ em.last_anchor_id
            exact le_refl _
        · rw [if_neg h1] at h
          by_cases h2 : a.references + 1 = 2
          · rw [if_pos h2] at h
            cases h
            constructor
            · show anchorAssignInv { em with
                last_anchor_id := em.last_anchor_id + 1
                anchors := (em.anchors.set (i - 1) { a with references := a.references + 1 }).set
                  (i - 1) { a with references := a.references + 1, anchor := em.last_anchor_id + 1 } }
              rw [List.set_set]
              exact anchorInv_set_fresh hInv higet rfl
                (show 2 ≤ a.references + 1 by omega)
            · show em.last_anchor_id ≤ em.last_anchor_id + 1
              exact Nat.le_succ _
          · rw [if_neg h2] at h
            cases h
            have hane : a.anchor ≠ 0 := haiff.mpr (by omega)
            refine ⟨?_, le_refl _⟩
            refine anchorInv_set_same hInv higet rfl ?_
            refine ⟨fun _ => ?_, fun _ => hane⟩
            show 2 ≤ a.references + 1
            omega
      · exact Option.noConfusion h
    have hitems : ∀ (d : Document) (items : List Nat) (em em2 : Emitter),
        anchorAssignInv em → anchor_node_items d (fuel + 1) em items = some em2 →
        anchorAssignInv em2 ∧ em.last_anchor_id ≤ em2.last_anchor_id := by
      intro d items em em2 hInv h
      cases items with
      | nil =>
        simp only [anchor_node_items] at h
        cases h; exact ⟨hInv, le_refl _⟩
      | cons x xs =>
        simp only [anchor_node_items] at h
        cases hx : anchor_node d fuel em x with
        | none => rw [hx] at h; exact Option.noConfusion h
        | some emA =>
          rw [hx] at h
          obtain ⟨hA, hlA⟩ := ihn d em x emA hInv hx
          obtain ⟨hB, hlB⟩ := ihi d xs emA em2 hA h
          exact ⟨hB, le_trans hlA hlB⟩
    have hpairs : ∀ (d : Document) (pairs : List NodePair) (em em2 : Emitter),
        anchorAssignInv em → anchor_node_pairs d (fuel + 1) em pairs = some em2 →
        anchorAssignInv em2 ∧ em.last_anchor_id ≤ em2.last_anchor_id := by
      intro d pairs em em2 hInv h
      cases pairs with
      | nil =>
        simp only [anchor_node_pairs] at h
        cases h; exact ⟨hInv, le_refl _⟩
      | cons x xs =>
        simp only [anchor_node_pairs] at h
        cases hx : anchor_node d fuel em x.key with
        | none => rw [hx] at h; exact Option.noConfusion h
        | some emA =>
          rw [hx] at h
          dsimp only [] at h
          obtain ⟨hA, hlA⟩ := ihn d em x.key emA hInv hx
          cases hy : anchor_node d fuel emA x.value with
          | none => rw [hy] at h; exact Option.noConfusion h
          | some emB =>
            rw [hy] at h
            obtain ⟨hB, hlB⟩ := ihn d emA x.value emB hA hy
            obtain ⟨hC, hlC⟩ := ihp d xs emB em2 hB h
            exact ⟨hC, le_trans hlA (le_trans hlB hlC)⟩
    exact ⟨hnode, hitems, hpairs⟩

/-- `DumpExtends` is reflexive. -/
theorem dumpExtends_refl (em : Emitter) : DumpExtends em em :=
  ⟨⟨[], by simp⟩, fun _ a h => ⟨a, h, rfl, fun hs => hs⟩⟩

/-- `DumpExtends` is transitive. -/
theorem dumpExtends_trans {em1 em2 em3 : Emitter}
    (h12 : DumpExtends em1 em2) (h23 : DumpExtends em2 em3) :
    DumpExtends em1 em3 := by
  obtain ⟨⟨s1, he1⟩, ha1⟩ := h12
  obtain ⟨⟨s2, he2⟩, ha2⟩ := h23
  refine ⟨⟨s1 ++ s2, by rw [he2, he1, List.append_assoc]⟩, ?_⟩
  intro k a h
  obtain ⟨a2, h2, hanc2, hs2⟩ := ha1 k a h
  obtain ⟨a3, h3, hanc3, hs3⟩ := ha2 k a2 h2
  exact ⟨a3, h3, hanc3.trans hanc2, fun hs => hs3 (hs2 hs)⟩

/-- Emitting an event is a `DumpExtends` step. -/
theorem dumpExtends_emit (em : Emitter) (e : EventData) :
    DumpExtends em (em.emit e) :=
  ⟨⟨[⟨e, Mark.default, Mark.default⟩], rfl⟩, fun _ a h => ⟨a, h, rfl, fun hs => hs⟩⟩

/-- Marking one node serialized is a `DumpExtends` step. -/
theorem dumpExtends_serialize {em : Emitter} {i : Nat} {a : Anchors}
    (hget : em.anchors.get? (i - 1) = some a) :
    DumpExtends em
      { em with anchors := setAnchors1 em.anchors i { a with serialized := true } } := by
  obtain ⟨hlt, -⟩ := List.get?_eq_some.mp hget
  refine ⟨⟨[], by simp⟩, ?_⟩
  intro k x hk
  unfold setAnchors1
  by_cases hki : k = i - 1
  · subst hki
    rw [hget] at hk
    cases hk
    exact ⟨{ a with serialized := true }, List.get?_set_eq_of_lt _ hlt, rfl, fun _ => rfl⟩
  · exact ⟨x, by rw [List.get?_set_ne _ _ (fun hc => hki hc.symm)]; exact hk,
      rfl, fun hs => hs⟩

/-- Every serializer function only extends the emitter in the
`DumpExtends` sense (any fuel). -/
theorem dump_extends : ∀ fuel : Nat,
    (∀ (d : Document) (em : Emitter) (i : Nat) (d2 : Document) (em2 : Emitter),
      dump_node d em i fuel = some (d2, em2) → DumpExtends em em2) ∧
    (∀ (d : Document) (em : Emitter) (items : List Nat) (d2 : Document) (em2 : Emitter),
      dump_node_items d em items fuel = some (d2, em2) → DumpExtends em em2) ∧
    (∀ (d : Document) (em : Emitter) (pairs : List NodePair) (d2 : Document) (em2 : Emitter),
      dump_node_pairs d em pairs fuel = some (d2, em2) → DumpExtends em em2) ∧
    (∀ (d : Document) (em : Emitter) (node : Node) (anchor : Option String)
        (d2 : Document) (em2 : Emitter),
      dump_sequence d em node anchor fuel = some (d2, em2) → DumpExtends em em2) ∧
    (∀ (d : Document) (em : Emitter) (node : Node) (anchor : Option String)
        (d2 : Document) (em2 : Emitter),
      dump_mapping d em node anchor fuel = some (d2, em2) → DumpExtends em em2) := by
  intro fuel
  induction fuel with
  | zero =>
    refine ⟨?_, ?_, ?_, ?_, ?_⟩
    · intro d em i d2 em2 h
      simp only [dump_node] at h
      exact Option.noConfusion h
    · intro d em items d2 em2 h
      cases items with
      | nil =>
        simp only [dump_node_items] at h
        cases h
        exact dumpExtends_refl em
      | cons x xs =>
        simp only [dump_node_items] at h
        exact Option.noConfusion h
    · intro d em pairs d2 em2 h
      cases pairs with
      | nil =>
        simp only [dump_node_pairs] at h
        cases h
        exact dumpExtends_refl em
      | cons x xs =>
        simp only [dump_node_pairs] at h
        exact Option.noConfusion h
    · intro d em node anchor d2 em2 h
      simp only [dump_sequence] at h
      exact Option.noConfusion h
    · intro d em node anchor d2 em2 h
      simp only [dump_mapping] at h
      exact Option.noConfusion h
  | succ fuel ih =>
    obtain ⟨ihn, ihi, ihp, ihsq, ihmp⟩ := ih
    have hnode : ∀ (d : Document) (em : Emitter) (i : Nat) (d2 : Document) (em2 : Emitter),
        dump_node d em i (fuel + 1) = some (d2, em2) → DumpExtends em em2 := by
      intro d em i d2 em2 h
      simp only [dump_node] at h
      split at h
      · exact Option.noConfusion h
      · split at h
        next node a hn ha =>
          obtain ⟨hi0, hilt, higet⟩ := getAnchors1_some ha
          by_cases hser : a.serialized
          · rw [if_pos hser] at h
            by_cases h0 : a.anchor ≠ 0
            · rw [if_pos h0] at h
              dsimp only [] at h
              cases h
              exact dumpExtends_emit _ _
            · rw [if_neg h0] at h
              exact Option.noConfusion h
          · rw [if_neg hser] at h
            have hser2 : DumpExtends em { em with
                anchors := setAnchors1 em.anchors i { a with serialized := true } } :=
              dumpExtends_serialize higet
            split at h
            next v s hdata =>
              unfold dump_scalar at h
              rw [hdata] at h
              simp only [Option.map_some, Option.some.injEq] at h
              cases h
              exact dumpExtends_trans hser2 (dumpExtends_emit _ _)
            next items s hdata =>
              exact dumpExtends_trans hser2 (ihsq _ _ node _ d2 em2 h)
            next pairs s hdata =>
              exact dumpExtends_trans hser2 (ihmp _ _ node _ d2 em2 h)
            next hdata =>
              exact Option.noConfusion h
        · exact Option.noConfusion h
    have hitems : ∀ (d : Document) (em : Emitter) (items : List Nat)
        (d2 : Document) (em2 : Emitter),
        dump_node_items d em items (fuel + 1) = some (d2, em2) → DumpExtends em em2 := by
      intro d em items d2 em2 h
      cases items with
      | nil =>
        simp only [dump_node_items] at h
        cases h
        exact dumpExtends_refl em
      | cons x xs =>
        simp only [dump_node_items] at h
        cases hx : dump_node d em x fuel with
        | none => rw [hx] at h; exact Option.noConfusion h
        | some p =>
          obtain ⟨dA, emA⟩ := p
          rw [hx] at h
          dsimp only [] at h
          exact dumpExtends_trans (ihn d em x dA emA hx) (ihi dA emA xs d2 em2 h)
    have hpairs : ∀ (d : Document) (em : Emitter) (pairs : List NodePair)
        (d2 : Document) (em2 : Emitter),
        dump_node_pairs d em pairs (fuel + 1) = some (d2, em2) → DumpExtends em em2 := by
      intro d em pairs d2 em2 h
      cases pairs with
      | nil =>
        simp only [dump_node_pairs] at h
        cases h
        exact dumpExtends_refl em
      | cons x xs =>
        simp only [dump_node_pairs] at h
        cases hx : dump_node d em x.key fuel with
        | none => rw [hx] at h; exact Option.noConfusion h
        | some p =>
          obtain ⟨dA, emA⟩ := p
          rw [hx] at h
          dsimp only [] at h
          cases hy : dump_node dA emA x.value fuel with
          | none => rw [hy] at h; exact Option.noConfusion h
          | some q =>
            obtain ⟨dB, emB⟩ := q
            rw [hy] at h
            dsimp only [] at h
            exact dumpExtends_trans (ihn d em x.key dA emA hx)
              (dumpExtends_trans (ihn dA emA x.value dB emB hy) (ihp dB emB xs d2 em2 h))
    have hseq : ∀ (d : Document) (em : Emitter) (node : Node) (anchor : Option String)
        (d2 : Document) (em2 : Emitter),
        dump_sequence d em node anchor (fuel + 1) = some (d2, em2) → DumpExtends em em2 := by
      intro d em node anchor d2 em2 h
      simp only [dump_sequence] at h
      split at h
      next items style hdata =>
        split at h
        next dX emX hx =>
          cases h
          exact dumpExtends_trans (dumpExtends_emit _ _)
            (dumpExtends_trans (ihi _ _ items _ _ hx) (dumpExtends_emit _ _))
        next hx => exact Option.noConfusion h
      · exact Option.noConfusion h
    have hmap : ∀ (d : Document) (em : Emitter) (node : Node) (anchor : Option String)
        (d2 : Document) (em2 : Emitter),
        dump_mapping d em node anchor (fuel + 1) = some (d2, em2) → DumpExtends em em2 := by
      intro d em node anchor d2 em2 h
      simp only [dump_mapping] at h
      split at h
      next pairs style hdata =>
        split at h
        next dX emX hx =>
          cases h
          exact dumpExtends_trans (dumpExtends_emit _ _)
            (dumpExtends_trans (ihp _ _ pairs _ _ hx) (dumpExtends_emit _ _))
        next hx => exact Option.noConfusion h
      · exact Option.noConfusion h
    exact ⟨hnode, hitems, hpairs, hseq, hmap⟩

/-- C6: during `dump`, the reference-counting pre-pass starts from a fresh
all-zero anchors table satisfying the assignment invariant, and the pass
preserves it: a node holds an anchor id exactly when it has accumulated at
least two references, ids come from the monotonically increasing
`last_anchor_id` counter (hence are nonzero, bounded by it and pairwise
distinct); then `dump_node` emits, for an already serialized node, exactly
one `Alias` event carrying that node's generated anchor, and on the first
visit it emits the node's events with the anchor attached and marks the node
serialized. -/
theorem C6_dump_anchor_assignment :
    (∀ (d : Document) (em : Emitter),
      anchorAssignInv { em with
        anchors := List.replicate d.nodes.length Anchors.default }) ∧
    (∀ (d : Document) (fuel : Nat) (em : Emitter) (i : Nat) (em2 : Emitter),
      anchorAssignInv em → anchor_node d fuel em i = some em2 →
      anchorAssignInv em2 ∧ em.last_anchor_id ≤ em2.last_anchor_id) ∧
    (∀ (d : Document) (em : Emitter) (i fuel : Nat) (d2 : Document)
        (em2 : Emitter) (a : Anchors),
      getAnchors1 em.anchors i = some a →
      dump_node d em i fuel = some (d2, em2) →
      ((a.serialized = true →
        a.anchor ≠ 0 ∧ d2 = d ∧
        em2 = em.emit (.alias (generate_anchor a.anchor))) ∧
       (a.serialized = false →
        (∃ e rest, em2.events = em.events ++ e :: rest ∧
          eventDataAnchor e.data =
            (if a.anchor ≠ 0 then some (generate_anchor a.anchor) else none)) ∧
        ∃ a2, em2.anchors.get? (i - 1) = some a2 ∧ a2.serialized = true ∧
          a2.anchor = a.anchor))) := by
  refine ⟨?_, ?_, ?_⟩
  · intro d em
    constructor
    · intro a ha
      rw [List.eq_of_mem_replicate ha]
      exact ⟨by simp [Anchors.default], Nat.zero_le _⟩
    · intro i j ai aj hij hgi hgj h0i h0j
      dsimp only [] at hgi
      have : ai = Anchors.default :=
        List.eq_of_mem_replicate (List.get?_mem hgi)
      rw [this] at h0i
      exact absurd rfl h0i
  · intro d fuel em i em2 hInv h
    exact (anchor_pass_inv fuel).1 d em i em2 hInv h
  · intro d em i fuel d2 em2 a hget hdump
    cases fuel with
    | zero =>
      simp only [dump_node] at hdump
      exact Option.noConfusion hdump
    | succ fuel =>
      obtain ⟨hi0, hilt, higet⟩ := getAnchors1_some hget
      simp only [dump_node] at hdump
      rw [if_neg hi0] at hdump
      split at hdump
      next node a2 hn ha2 =>
        rw [hget] at ha2
        injection ha2 with ha2
        subst ha2
        constructor
        · intro hser
          rw [if_pos hser] at hdump
          by_cases h0 : a.anchor ≠ 0
          · rw [if_pos h0] at hdump
            dsimp only [] at hdump
            cases hdump
            exact ⟨h0, rfl, rfl⟩
          · rw [if_neg h0] at hdump
            exact Option.noConfusion hdump
        · intro hser
          rw [if_neg (by simp [hser])] at hdump
          split at hdump
          next v s hdata =>
            unfold dump_scalar at hdump
            rw [hdata] at hdump
            simp only [Option.map_some, Option.some.injEq] at hdump
            cases hdump
            refine ⟨⟨_, [], rfl, rfl⟩,
              ⟨{ a with serialized := true }, ?_, rfl, rfl⟩⟩
            show (setAnchors1 em.anchors i { a with serialized := true }).get? (i - 1) = _
            unfold setAnchors1
            exact List.get?_set_eq_of_lt _ hilt
          next items s hdata =>
            cases fuel with
            | zero =>
              simp only [dump_sequence] at hdump
              exact Option.noConfusion hdump
            | succ fuel =>
              simp only [dump_sequence] at hdump
              rw [hdata] at hdump
              dsimp only [] at hdump
              split at hdump
              next dX emX hx =>
                cases hdump
                obtain ⟨⟨suffix, hev⟩, hanc⟩ := (dump_extends fuel).2.1 _ _ items _ _ hx
                constructor
                · refine ⟨⟨.sequenceStart
                      (if a.anchor ≠ 0 then some (generate_anchor a.anchor) else none)
                      node.tag (node.tag == some DEFAULT_SEQUENCE_TAG) s,
                      Mark.default, Mark.default⟩,
                    suffix ++ [⟨.sequenceEnd, Mark.default, Mark.default⟩], ?_, rfl⟩
                  show emX.events ++ [(⟨.sequenceEnd, Mark.default, Mark.default⟩ : Event)] = _
                  rw [hev]
                  show (em.events ++ [_]) ++ suffix ++ [_] = _
                  simp [List.append_assoc]
                · have hga : (setAnchors1 em.anchors i { a with serialized := true }).get? (i - 1)
                      = some { a with serialized := true } := by
                    unfold setAnchors1
                    exact List.get?_set_eq_of_lt _ hilt
                  obtain ⟨a3, hga3, hanc3, hs3⟩ := hanc (i - 1) { a with serialized := true } hga
                  exact ⟨a3, hga3, hs3 rfl, hanc3⟩
              next hx => exact Option.noConfusion hdump
          next pairs s hdata =>
            cases fuel with
            | zero =>
              simp only [dump_mapping] at hdump
              exact Option.noConfusion hdump
            | succ fuel =>
              simp only [dump_mapping] at hdump
              rw [hdata] at hdump
              dsimp only [] at hdump
              split at hdump
              next dX emX hx =>
                cases hdump
                obtain ⟨⟨suffix, hev⟩, hanc⟩ := (dump_extends fuel).2.2.1 _ _ pairs _ _ hx
                constructor
                · refine ⟨⟨.mappingStart
                      (if a.anchor ≠ 0 then some (generate_anchor a.anchor) else none)
                      node.tag (node.tag == some DEFAULT_MAPPING_TAG) s,
                      Mark.default, Mark.default⟩,
                    suffix ++ [⟨.mappingEnd, Mark.default, Mark.default⟩], ?_, rfl⟩
                  show emX.events ++ [(⟨.mappingEnd, Mark.default, Mark.default⟩ : Event)] = _
                  rw [hev]
                  show (em.events ++ [_]) ++ suffix ++ [_] = _
                  simp [List.append_assoc]
                · have hga : (setAnchors1 em.anchors i { a with serialized := true }).get? (i - 1)
                      = some { a with serialized := true } := by
                    unfold setAnchors1
                    exact List.get?_set_eq_of_lt _ hilt
                  obtain ⟨a3, hga3, hanc3, hs3⟩ := hanc (i - 1) { a with serialized := true } hga
                  exact ⟨a3, hga3, hs3 rfl, hanc3⟩
              next hx => exact Option.noConfusion hdump
          next hdata =>
            exact Option.noConfusion hdump
      · exact Option.noConfusion hdump

/-- C6 witness: on the shared-node fixture document, the fresh anchors table
satisfies the invariant, the pass from the root assigns anchor 1 to the
twice-referenced node and leaves the invariant intact, and dumping the
already serialized node 1 emits the alias `id1`. -/
theorem C6_dump_anchor_assignment_witness :
    anchorAssignInv { sharedFreshEmitter with
      anchors := List.replicate sharedDoc.nodes.length Anchors.default } ∧
    (∃ em2, anchor_node sharedDoc 10 sharedFreshEmitter 1 = some em2 ∧
      anchorAssignInv em2 ∧
      sharedFreshEmitter.last_anchor_id ≤ em2.last_anchor_id) ∧
    (∃ d2 em2, dump_node sharedDoc sharedSerializedEmitter 1 5 = some (d2, em2) ∧
      d2 = sharedDoc ∧
      em2 = sharedSerializedEmitter.emit (.alias (generate_anchor 1))) :=
  ⟨C6_dump_anchor_assignment.1 sharedDoc sharedFreshEmitter,
   ⟨_, rfl, C6_dump_anchor_assignment.2.1 sharedDoc 10 sharedFreshEmitter 1 _
      (C6_dump_anchor_assignment.1 sharedDoc sharedFreshEmitter) rfl⟩,
   ⟨_, _, rfl,
    ((C6_dump_anchor_assignment.2.2 sharedDoc sharedSerializedEmitter 1 5 _ _
        ⟨2, 1, true⟩ rfl rfl).1 rfl).2⟩⟩

/-- C1: every document produced by `load` satisfies the node-id invariant —
each nonzero NodeId referenced from a sequence or mapping lies in
`1..=nodes.len()` — with the root (when the document is non-empty) at index 1;
and the invariant is preserved by the two mutators `append_sequence_item`
and `yaml_document_append_mapping_pair`. -/
theorem C1_node_ids_in_range :
    (∀ events d, load events = .ok d →
      docIdsOk d ∧
      (d.nodes ≠ [] →
        d.get_node 1 = d.get_root_node ∧ (d.get_node 1).isSome = true)) ∧
    (∀ d s i d', docIdsOk d → append_sequence_item d s i = some d' →
      docIdsOk d') ∧
    (∀ d mp k v d', docIdsOk d →
      yaml_document_append_mapping_pair d mp k v = some d' → docIdsOk d') := by
  have hroot : ∀ dd : Document, dd.get_node 1 = dd.get_root_node := by
    intro dd
    unfold Document.get_node Document.get_root_node
    congr 1
  have hsome : ∀ dd : Document, dd.nodes ≠ [] → (dd.get_node 1).isSome = true := by
    intro dd hne
    rw [hroot]
    unfold Document.get_root_node
    cases hnn : dd.nodes with
    | nil => exact absurd hnn hne
    | cons x xs => rfl
  refine ⟨?_, ?_, ?_⟩
  · intro events d h
    have hmain : docIdsOk d := by
      unfold load at h
      split at h
      · exact Except.noConfusion h
      next e rest =>
        split at h
        · split at h
          · exact Except.noConfusion h
          next e2 rest2 =>
            split at h
            · cases h
              intro node hm
              exact absurd hm (List.not_mem_nil _)
            · cases hld : load_document (Document.new none [] false false) e2 rest2 with
              | error e => rw [hld] at h; exact Except.noConfusion h
              | ok stF =>
                rw [hld] at h
                simp only [Except.map] at h
                cases h
                unfold load_document at hld
                split at hld
                next vd td impl heq =>
                  have hInit : composerInv
                      { doc := { Document.new none [] false false with
                          version_directive := vd, tag_directives := td,
                          start_implicit := impl, start_mark := e2.start_mark }
                        aliases := [], ctx := [] } := by
                    constructor
                    · intro node hm; exact absurd hm (List.not_mem_nil _)
                    · intro x hx; exact absurd hx (List.not_mem_nil _)
                  have hF : composerInv stF := by
                    refine load_nodes_preserves composerInv ?_ ?_ ?_ ?_ ?_ ?_ ?_
                      rest2 _ stF hInit hld
                    · intro st a m st' hP hx; exact load_alias_inv hP hx
                    · intro st a t2 v2 sty m1 m2 st' hP hx; exact load_scalar_inv hP hx
                    · intro st a t2 sty m1 m2 st' hP hx; exact load_sequence_inv hP hx
                    · intro st m st' hP hx
                      obtain ⟨hal, -, hlen, p, node, -, -, hget, hset⟩ := load_sequence_end_ok hx
                      exact end_update_inv hP hal hlen ⟨p, node, hget, hset⟩
                    · intro st a t2 sty m1 m2 st' hP hx; exact load_mapping_inv hP hx
                    · intro st m st' hP hx
                      obtain ⟨hal, -, hlen, p, node, -, -, hget, hset⟩ := load_mapping_end_ok hx
                      exact end_update_inv hP hal hlen ⟨p, node, hget, hset⟩
                    · intro st b2 m hP; exact ⟨hP.1, hP.2⟩
                  intro node hm i hi hine
                  exact ⟨by omega, hF.1 node hm i hi⟩
                · exact Except.noConfusion hld
        · exact Except.noConfusion h
    exact ⟨hmain, fun hne => ⟨hroot d, hsome d hne⟩⟩
  · intro d s i d' hOk h
    unfold append_sequence_item at h
    split at h
    · exact Option.noConfusion h
    next hcond =>
      split at h
      · exact Option.noConfusion h
      next node hget =>
        split at h
        next items style hdata =>
          split at h
          · exact Option.noConfusion h
          next hitem =>
            rw [not_not] at hitem
            cases h
            intro x hm j hj hjne
            simp only [List.length_set]
            rcases List.mem_or_eq_of_mem_set hm with hm | rfl
            · exact hOk x hm j hj hjne
            · simp only [nodeIds, hdata, List.mem_append, List.mem_singleton] at hj
              rcases hj with hj | rfl
              · have hnm : node ∈ d.nodes := List.get?_mem hget
                have := hOk node hnm j (by simp [nodeIds, hdata, hj]) hjne
                omega
              · omega
        · exact Option.noConfusion h
  · intro d mp k v d' hOk h
    unfold yaml_document_append_mapping_pair at h
    split at h
    · exact Option.noConfusion h
    next hcond =>
      split at h
      · exact Option.noConfusion h
      next node hget =>
        split at h
        next pairs style hdata =>
          split at h
          · exact Option.noConfusion h
          next hkey =>
            split at h
            · exact Option.noConfusion h
            next hval =>
              rw [not_not] at hkey hval
              cases h
              intro x hm j hj hjne
              simp only [List.length_set]
              rcases List.mem_or_eq_of_mem_set hm with hm | rfl
              · exact hOk x hm j hj hjne
              · simp only [nodeIds, hdata, List.mem_flatMap] at hj
                rcases hj with ⟨q, hq, hjq⟩
                rcases List.mem_append.mp hq with hq | hq
                · have hnm : node ∈ d.nodes := List.get?_mem hget
                  have := hOk node hnm j
                    (by simp only [nodeIds, hdata, List.mem_flatMap]; exact ⟨q, hq, hjq⟩)
                    hjne
                  omega
                · rcases List.mem_singleton.mp hq with rfl
                  simp only [List.mem_cons, List.not_mem_nil, or_false] at hjq
                  rcases hjq with rfl | rfl
                  · omega
                  · omega
        · exact Option.noConfusion h

/-- C1 witness: a loaded one-scalar document satisfies the invariant and has
its root at index 1; appending item 2 to the fixture document's sequence
keeps the invariant. -/
theorem C1_node_ids_in_range_witness :
    (∃ d, load scalarDocEvents = .ok d ∧
      (docIdsOk d ∧ (d.nodes ≠ [] →
        d.get_node 1 = d.get_root_node ∧ (d.get_node 1).isSome = true))) ∧
    (∃ d2, append_sequence_item fixtureDoc 1 2 = some d2 ∧ docIdsOk d2) :=
  ⟨⟨_, rfl, C1_node_ids_in_range.1 scalarDocEvents _ rfl⟩,
   ⟨_, rfl, C1_node_ids_in_range.2.1 fixtureDoc 1 2 _ (by decide) rfl⟩⟩

/-- C3: registering an anchor that is already present fails with a composer
error carrying the marks of both occurrences (the first occurrence found in
the alias table, and the new node); consequently the table of anchors built
by the `load_nodes` loop stays duplicate-free throughout a load (which
starts from an empty table). -/
theorem C3_register_anchor_duplicate_unique :
    (∀ (st : Composer) (index : Nat) (anchor : String) (node : Node)
        (first : AliasData),
      getNode1 st.doc.nodes index = some node →
      st.aliases.find? (fun a => a.anchor = anchor) = some first →
      register_anchor st index (some anchor) =
        .error (.composer "found duplicate anchor; first occurrence" first.mark
          "second occurrence" node.start_mark)) ∧
    (∀ (events : List Event) (st st2 : Composer),
      (st.aliases.map AliasData.anchor).Nodup →
      load_nodes st events = .ok st2 →
      (st2.aliases.map AliasData.anchor).Nodup) := by
  constructor
  · intro st index anchor node first hn hf
    simp only [register_anchor, hn, hf]
  · intro events st st2 hN h
    refine load_nodes_preserves (fun st => (st.aliases.map AliasData.anchor).Nodup)
      ?_ ?_ ?_ ?_ ?_ ?_ ?_ events st st2 hN h
    · intro st a m st' hP hx
      obtain ⟨first, -, hadd⟩ := load_alias_ok hx
      rw [(load_node_add_ok hadd).1]; exact hP
    · intro st a t v sty m1 m2 st' hP hx; exact load_scalar_nodup hP hx
    · intro st a t sty m1 m2 st' hP hx; exact load_sequence_nodup hP hx
    · intro st m st' hP hx; rw [(load_sequence_end_ok hx).1]; exact hP
    · intro st a t sty m1 m2 st' hP hx; exact load_mapping_nodup hP hx
    · intro st m st' hP hx; rw [(load_mapping_end_ok hx).1]; exact hP
    · intro st b m hP; exact hP

/-- C3 witness: on the fixture composer, re-registering anchor `a` for node
2 yields the duplicate-anchor error with both marks, and a one-event load
keeps the singleton anchor table duplicate-free. -/
theorem C3_register_anchor_duplicate_unique_witness :
    register_anchor fixtureComposer 2 (some "a") =
      .error (.composer "found duplicate anchor; first occurrence" Mark.default
        "second occurrence" Mark.default) ∧
    ((Composer.mk
        { fixtureDoc with end_implicit := true, end_mark := Mark.default }
        [⟨"a", 1, Mark.default⟩] [1]).aliases.map AliasData.anchor).Nodup :=
  ⟨C3_register_anchor_duplicate_unique.1 fixtureComposer 2 "a" fixtureScalarNode
      ⟨"a", 1, Mark.default⟩ rfl rfl,
   C3_register_anchor_duplicate_unique.2
      [⟨.documentEnd true, Mark.default, Mark.default⟩] fixtureComposer _
      (by decide) rfl⟩

/-- C5: the tag stored on a composed node is the event's tag run through
`resolveTag`: an absent tag or the non-specific tag `!` becomes the default
tag of the node's kind (str / seq / map), any other tag is kept; and each of
`load_scalar`, `load_sequence`, `load_mapping` stores exactly that tag on
the node it pushes (stated below the `u32` wrap bound and for well-formed
context stacks). -/
theorem C5_default_tag_resolution :
    (∀ t d, (t = none ∨ t = some "!") → resolveTag t d = some d) ∧
    (∀ (t : Option String) d, t ≠ none → t ≠ some "!" → resolveTag t d = t) ∧
    (∀ st a t v sty m1 m2 st',
      st.doc.nodes.length + 1 < 2 ^ 32 →
      (∀ c ∈ st.ctx, c ≤ st.doc.nodes.length) →
      load_scalar st a t v sty m1 m2 = .ok st' →
      st'.doc.nodes.get? st.doc.nodes.length =
        some ⟨.scalar v sty, resolveTag t DEFAULT_SCALAR_TAG, m1, m2⟩) ∧
    (∀ st a t sty m1 m2 st',
      st.doc.nodes.length + 1 < 2 ^ 32 →
      (∀ c ∈ st.ctx, c ≤ st.doc.nodes.length) →
      load_sequence st a t sty m1 m2 = .ok st' →
      st'.doc.nodes.get? st.doc.nodes.length =
        some ⟨.sequence [] sty, resolveTag t DEFAULT_SEQUENCE_TAG, m1, m2⟩) ∧
    (∀ st a t sty m1 m2 st',
      st.doc.nodes.length + 1 < 2 ^ 32 →
      (∀ c ∈ st.ctx, c ≤ st.doc.nodes.length) →
      load_mapping st a t sty m1 m2 = .ok st' →
      st'.doc.nodes.get? st.doc.nodes.length =
        some ⟨.mapping [] sty, resolveTag t DEFAULT_MAPPING_TAG, m1, m2⟩) := by
  refine ⟨?_, ?_, ?_, ?_, ?_⟩
  · intro t d ht
    rcases ht with rfl | rfl <;> simp [resolveTag]
  · intro t d h1 h2
    unfold resolveTag
    rw [if_neg]
    push_neg
    exact ⟨h1, h2⟩
  · intro st a t v sty m1 m2 st' hlen hctx h
    unfold load_scalar at h
    obtain ⟨stA, hra, hadd⟩ := exceptBind_ok h
    obtain ⟨hdocA, hctxA, -⟩ := register_anchor_ok_parts hra
    obtain ⟨-, -, -, hnodes⟩ := load_node_add_ok hadd
    have hA : stA.doc.nodes =
        st.doc.nodes ++ [⟨.scalar v sty, resolveTag t DEFAULT_SCALAR_TAG, m1, m2⟩] :=
      congrArg Document.nodes hdocA
    rcases hnodes with hnodes | ⟨p, nodeB, nodeNew, hlastA, hp0, -, hset, -⟩
    · rw [hnodes, hA]
      exact List.get?_concat_length _ _
    · have hpmem : p ∈ st.ctx := by
        have : p ∈ stA.ctx := List.mem_of_getLast?_eq_some hlastA
        rwa [hctxA] at this
      have hp : p ≤ st.doc.nodes.length := hctx p hpmem
      rw [hset, List.get?_set_ne _ _ (by omega), hA]
      exact List.get?_concat_length _ _
  · intro st a t sty m1 m2 st' hlen hctx h
    unfold load_sequence at h
    obtain ⟨stA, hra, h2⟩ := exceptBind_ok h
    obtain ⟨stB, hadd, h3⟩ := exceptBind_ok h2
    cases h3
    obtain ⟨hdocA, hctxA, -⟩ := register_anchor_ok_parts hra
    obtain ⟨-, -, -, hnodes⟩ := load_node_add_ok hadd
    have hA : stA.doc.nodes =
        st.doc.nodes ++ [⟨.sequence [] sty, resolveTag t DEFAULT_SEQUENCE_TAG, m1, m2⟩] :=
      congrArg Document.nodes hdocA
    show stB.doc.nodes.get? st.doc.nodes.length = _
    rcases hnodes with hnodes | ⟨p, nodeB, nodeNew, hlastA, hp0, -, hset, -⟩
    · rw [hnodes, hA]
      exact List.get?_concat_length _ _
    · have hpmem : p ∈ st.ctx := by
        have hm : p ∈ stA.ctx := List.mem_of_getLast?_eq_some hlastA
        rwa [hctxA] at hm
      have hp : p ≤ st.doc.nodes.length := hctx p hpmem
      rw [hset, List.get?_set_ne _ _ (by omega), hA]
      exact List.get?_concat_length _ _
  · intro st a t sty m1 m2 st' hlen hctx h
    unfold load_mapping at h
    obtain ⟨stA, hra, h2⟩ := exceptBind_ok h
    obtain ⟨stB, hadd, h3⟩ := exceptBind_ok h2
    cases h3
    obtain ⟨hdocA, hctxA, -⟩ := register_anchor_ok_parts hra
    obtain ⟨-, -, -, hnodes⟩ := load_node_add_ok hadd
    have hA : stA.doc.nodes =
        st.doc.nodes ++ [⟨.mapping [] sty, resolveTag t DEFAULT_MAPPING_TAG, m1, m2⟩] :=
      congrArg Document.nodes hdocA
    show stB.doc.nodes.get? st.doc.nodes.length = _
    rcases hnodes with hnodes | ⟨p, nodeB, nodeNew, hlastA, hp0, -, hset, -⟩
    · rw [hnodes, hA]
      exact List.get?_concat_length _ _
    · have hpmem : p ∈ st.ctx := by
        have hm : p ∈ stA.ctx := List.mem_of_getLast?_eq_some hlastA
        rwa [hctxA] at hm
      have hp : p ≤ st.doc.nodes.length := hctx p hpmem
      rw [hset, List.get?_set_ne _ _ (by omega), hA]
      exact List.get?_concat_length _ _

/-- C5 witness: a tagless scalar composed into an empty document receives
the default scalar tag. -/
theorem C5_default_tag_resolution_witness :
    resolveTag none DEFAULT_SCALAR_TAG = some DEFAULT_SCALAR_TAG ∧
    ∃ st', load_scalar emptyComposer none none "x" ScalarStyle.plain
        Mark.default Mark.default = .ok st' ∧
      st'.doc.nodes.get? emptyComposer.doc.nodes.length =
        some ⟨.scalar "x" .plain, resolveTag none DEFAULT_SCALAR_TAG,
          Mark.default, Mark.default⟩ :=
  ⟨C5_default_tag_resolution.1 none DEFAULT_SCALAR_TAG (.inl rfl),
   ⟨_, rfl, C5_default_tag_resolution.2.2.1 emptyComposer none none "x" .plain
      Mark.default Mark.default _ (by norm_num [emptyComposer, Document.new]) (by intro c hc; cases hc) rfl⟩⟩

/-- C7: loading the event stream of the input `&a [1, *a]` produces exactly two
nodes; node 1 is the sequence with items `[2, 1]` — the scalar `"1"` (node
2) followed by node 1 itself, the alias resolving because the sequence's
anchor was registered before its items were composed. -/
theorem C7_alias_self_sequence :
    (load aliasSelfEvents).map (fun d => d.nodes.length) = .ok 2 ∧
    (load aliasSelfEvents).map (fun d => (d.nodes.get? 0).map Node.data) =
      .ok (some (.sequence [2, 1] .flow)) ∧
    (load aliasSelfEvents).map (fun d => (d.nodes.get? 1).map Node.data) =
      .ok (some (.scalar "1" .plain)) :=
  ⟨rfl, rfl, rfl⟩

/-- C8 counterexample: `yaml_emitter_set_indent` does not clamp to the
nearest bound — at argument 10 clamping into `[2, 9]` would give 9, but the
code stores the default 2. -/
theorem C8_counterexample : yaml_emitter_set_indent 10 ≠ clampSpecIndent 10 := by
  decide

/-- C8 (amended): the stored `best_indent` always lies in `[2, 9]`;
arguments strictly between 1 and 10 are kept, every other argument
(including those above 9) is replaced by the default 2. -/
theorem C8_set_indent_range (indent : Int) :
    (2 ≤ yaml_emitter_set_indent indent ∧ yaml_emitter_set_indent indent ≤ 9) ∧
    (1 < indent ∧ indent < 10 → yaml_emitter_set_indent indent = indent) ∧
    (¬(1 < indent ∧ indent < 10) → yaml_emitter_set_indent indent = 2) := by
  unfold yaml_emitter_set_indent
  by_cases h : 1 < indent ∧ indent < 10
  · rw [if_pos h]; exact ⟨⟨by omega, by omega⟩, fun _ => rfl, fun h2 => absurd h h2⟩
  · rw [if_neg h]; exact ⟨⟨by omega, by omega⟩, fun h2 => absurd h2 h, fun _ => rfl⟩

/-- C8 witness at the concrete argument 10. -/
theorem C8_set_indent_range_witness :
    (2 ≤ yaml_emitter_set_indent 10 ∧ yaml_emitter_set_indent 10 ≤ 9) ∧
    (1 < (10 : Int) ∧ (10 : Int) < 10 → yaml_emitter_set_indent 10 = 10) ∧
    (¬(1 < (10 : Int) ∧ (10 : Int) < 10) → yaml_emitter_set_indent 10 = 2) :=
  C8_set_indent_range 10

/-- C9: the `Scalar` event produced by `dump_scalar` has its two implicit
flags computed from the same comparison, hence always equal, and both are
true exactly when the node's tag is the default scalar tag. -/
theorem C9_dump_scalar_implicit_flags (em : Emitter) (node : Node)
    (anchor : Option String) (em2 : Emitter)
    (h : dump_scalar em node anchor = some em2) :
    ∃ value style pi qi,
      em2.events = em.events ++
        [⟨.scalar anchor node.tag value pi qi style, Mark.default, Mark.default⟩] ∧
      pi = qi ∧ (pi = true ↔ node.tag = some DEFAULT_SCALAR_TAG) := by
  unfold dump_scalar at h
  cases hd : node.data <;> rw [hd] at h
  case scalar value style =>
    simp only [Option.some.injEq] at h
    refine ⟨value, style, node.tag == some DEFAULT_SCALAR_TAG,
      node.tag == some DEFAULT_SCALAR_TAG, ?_, rfl, by simp [beq_iff_eq]⟩
    rw [← h]; rfl
  all_goals exact Option.noConfusion h

/-- C10: `get_node` and `get_node_mut` agree and are total over the whole
`i32` index range: with the physical bound that a Rust `Vec` has fewer than
`2^61` elements, the wrapping conversion `index as usize - 1` lands in range
exactly when `1 ≤ index ≤ nodes.len()`, and every other index (0 and
negative included) yields `None` without faulting (release / wrapping
arithmetic semantics). -/
theorem C10_get_node_total (d : Document) (index : Int)
    (hlo : -(2 ^ 31) ≤ index) (hhi : index < 2 ^ 31)
    (hlen : d.nodes.length < 2 ^ 61) :
    d.get_node_mut index = d.get_node index ∧
    (1 ≤ index ∧ index ≤ d.nodes.length →
      d.get_node index = d.nodes.get? (index.toNat - 1) ∧
      (d.get_node index).isSome = true) ∧
    (¬(1 ≤ index ∧ index ≤ d.nodes.length) → d.get_node index = none) := by
  refine ⟨rfl, ?_, ?_⟩
  · rintro ⟨h1, h2⟩
    have hpos : usizeSub1 (usizeOfI32 index) = index.toNat - 1 := by
      unfold usizeSub1 usizeOfI32; omega
    unfold Document.get_node
    rw [hpos]
    refine ⟨rfl, ?_⟩
    cases hc : d.nodes.get? (index.toNat - 1) with
    | none => exact absurd (List.get?_eq_none.mp hc) (by omega)
    | some a => rfl
  · intro h
    unfold Document.get_node
    rw [List.get?_eq_none]
    unfold usizeSub1 usizeOfI32
    omega

/-- C10 witness at the concrete out-of-range index 0 on the fixture
document. -/
theorem C10_get_node_total_witness :
    fixtureDoc.get_node_mut 0 = fixtureDoc.get_node 0 ∧
    (1 ≤ (0 : Int) ∧ (0 : Int) ≤ fixtureDoc.nodes.length →
      fixtureDoc.get_node 0 = fixtureDoc.nodes.get? ((0 : Int).toNat - 1) ∧
      (fixtureDoc.get_node 0).isSome = true) ∧
    (¬(1 ≤ (0 : Int) ∧ (0 : Int) ≤ fixtureDoc.nodes.length) →
      fixtureDoc.get_node 0 = none) :=
  C10_get_node_total fixtureDoc 0 (by norm_num) (by norm_num) (by norm_num [fixtureDoc])

/-- C2: `load_node_add` attaches a node id to the innermost open collection
(the top of the context stack): a sequence parent appends it to `items`; a
mapping parent whose most recent pair lacks a value (value = 0) stores it as
that value; otherwise the mapping parent gains a new pair with the id as key
and value 0. -/
theorem C2_load_node_add_attaches (st : Composer) (index parent : Nat) (node : Node)
    (hctx : st.ctx.getLast? = some parent)
    (hget : getNode1 st.doc.nodes parent = some node) :
    (∀ items style, node.data = .sequence items style →
      load_node_add st index =
        .ok (withParent st parent node (.sequence (items ++ [index]) style))) ∧
    (∀ pairs style pair, node.data = .mapping pairs style →
      pairs.getLast? = some pair → pair.value = 0 →
      load_node_add st index =
        .ok (withParent st parent node
          (.mapping (pairs.dropLast ++ [{ pair with value := index }]) style))) ∧
    (∀ pairs style, node.data = .mapping pairs style →
      (∀ pair ∈ pairs.getLast?, pair.value ≠ 0) →
      load_node_add st index =
        .ok (withParent st parent node (.mapping (pairs ++ [⟨index, 0⟩]) style))) := by
  refine ⟨?_, ?_, ?_⟩
  · intro items style hdata
    simp only [load_node_add, hctx, hget, hdata, withParent]
  · intro pairs style pair hdata hlast hv
    simp only [load_node_add, hctx, hget, hdata, hlast, if_pos hv, withParent]
  · intro pairs style hdata hv
    cases hlast : pairs.getLast? with
    | none => simp only [load_node_add, hctx, hget, hdata, hlast, withParent]
    | some pair =>
      simp only [load_node_add, hctx, hget, hdata, hlast,
        if_neg (hv pair (Option.mem_def.mpr hlast)), withParent]

/-- C2 witness: attaching node 2 to the open sequence of the fixture
composer appends it to the sequence's items. -/
theorem C2_load_node_add_attaches_witness :
    load_node_add fixtureComposer 2 =
      .ok (withParent fixtureComposer 1 fixtureSeqNode (.sequence ([] ++ [2]) .block)) :=
  (C2_load_node_add_attaches fixtureComposer 2 1 fixtureSeqNode rfl rfl).1 [] .block rfl

/-- C4: an alias event whose anchor is registered attaches the previously
registered node id to the current parent via `load_node_add` (the id can
thus appear several times in the document); an unregistered anchor is a
composer error. -/
theorem C4_load_alias_resolution (st : Composer) (anchor : String) (mark : Mark) :
    (∀ first, st.aliases.find? (fun a => a.anchor = anchor) = some first →
      load_alias st anchor mark = load_node_add st first.index) ∧
    (st.aliases.find? (fun a => a.anchor = anchor) = none →
      load_alias st anchor mark =
        .error (.composer "" Mark.default "found undefined alias" mark)) := by
  constructor
  · intro first h; unfold load_alias; rw [h]
  · intro h; unfold load_alias; rw [h]

/-- C4 witness: on the fixture composer the known anchor `a` resolves to
node 1 and the unknown anchor `b` errors. -/
theorem C4_load_alias_resolution_witness :
    load_alias fixtureComposer "a" Mark.default = load_node_add fixtureComposer 1 ∧
    load_alias fixtureComposer "b" Mark.default =
      .error (.composer "" Mark.default "found undefined alias" Mark.default) :=
  ⟨(C4_load_alias_resolution fixtureComposer "a" Mark.default).1 ⟨"a", 1, Mark.default⟩ rfl,
   (C4_load_alias_resolution fixtureComposer "b" Mark.default).2 rfl⟩

/-- C9 witness at a concrete scalar node. -/
theorem C9_dump_scalar_implicit_flags_witness :
    ∃ value style pi qi,
      ((Emitter.mk true [] 0 []).emit
          (.scalar none (some DEFAULT_SCALAR_TAG) "x" true true .plain)).events =
        (Emitter.mk true [] 0 []).events ++
          [⟨.scalar none (Node.mk (.scalar "x" .plain) (some DEFAULT_SCALAR_TAG)
              Mark.default Mark.default).tag value pi qi style,
            Mark.default, Mark.default⟩] ∧
      pi = qi ∧
      (pi = true ↔ (Node.mk (.scalar "x" .plain) (some DEFAULT_SCALAR_TAG)
          Mark.default Mark.default).tag = some DEFAULT_SCALAR_TAG) :=
  C9_dump_scalar_implicit_flags ⟨true, [], 0, []⟩
    ⟨.scalar "x" .plain, some DEFAULT_SCALAR_TAG, Mark.default, Mark.default⟩ none _ rfl

end YamlDoc
